import Mathlib

/-!
# A shallow embedding of the formic Ant-glob engine (src/formic/formic.py)

This file embeds the pattern compiler and the incremental directory-tree
matcher of the formic package into Lean, and proves/refutes the frozen
claims about it.

Modelling conventions:

* The runtime platform (`os.name`) is a Boolean parameter `posix`
  (`true` = POSIX, `false` = NT).  `os.path.normcase` is the identity on
  POSIX and lowercases (and turns `/` into `\`) on NT.
* Machine integers do not occur; Python integers are `Int`/`Nat`.
* Python exceptions become an `Except PyErr` result; `PyErr`
  distinguishes the engine error `FormicError` from `IndexError`.
* Directories are lists of path components (`List String`); the string
  plumbing in `FileSet.files` that strips the root prefix from `os.walk`
  results and re-splits it is modelled by passing component lists
  directly.
-/

deriving instance DecidableEq for Except

namespace Formic

/-- Python exceptions raised by the compiler: the engine-specific
`FormicError` (with its message) or a bare `IndexError` from an
out-of-range list subscript. -/
inductive PyErr where
  | formicError (msg : String) : PyErr
  | indexError : PyErr
  deriving DecidableEq, Repr

/-! Character-list implementations of the string primitives the engine
uses (`str.lower`, `str.replace`, `str.split`, `in`, `join`); they agree
with the library versions and reduce inside the kernel. -/

/-- `str.lower()` (ASCII case folding, as applied to glob components). -/
def strLower (s : String) : String := ⟨s.data.map Char.toLower⟩

/-- `c in s` for a single character. -/
def strContains (s : String) (c : Char) : Bool := s.data.contains c

/-- `"/".join(l)`. -/
def joinSlash (l : List String) : String := ⟨List.intercalate ['/'] (l.map String.data)⟩

/-- `os.path.normcase`: identity on POSIX; on NT, `/` becomes `\` and
letters are lowercased. -/
def normcase (posix : Bool) (s : String) : String :=
  if posix then s
  else ⟨s.data.map (fun c => if c = '/' then '\\' else c.toLower)⟩

/-- `determine_casesensitive`: the requested flag on POSIX, always
`false` on NT. -/
def determine_casesensitive (posix : Bool) (casesensitive : Bool) : Bool :=
  if posix then casesensitive else false

/-! ## fnmatch

`fnmatch.fnmatch(name, pat)` of the Python standard library: both
arguments are passed through `os.path.normcase` and then matched with
shell-glob semantics: `?` one character, `*` any run of characters,
`[...]` a character class (leading `!` negates; a `]` directly after the
opening may appear literally; an unterminated `[` is a literal). -/

/-- Membership of a character in the body of a `[...]` class: `a-b`
denotes a range, other characters are literals. -/
def classMatch : List Char → Char → Bool
  | a :: '-' :: b :: rest, c => (a ≤ c && c ≤ b) || classMatch rest c
  | a :: rest, c => (a = c) || classMatch rest c
  | [], _ => false

/-- Scan for the closing `]` of a character class, returning the class
body and the remainder of the pattern. -/
def findClose : List Char → Option (List Char × List Char)
  | [] => none
  | c :: rest =>
    if c = ']' then some ([], rest)
    else
      match findClose rest with
      | none => none
      | some (body, rem) => some (c :: body, rem)

theorem findClose_length {l body rem : List Char}
    (h : findClose l = some (body, rem)) : rem.length < l.length := by
  induction l generalizing body rem with
  | nil => simp [findClose] at h
  | cons c rest ih =>
    rw [findClose] at h
    split at h
    · cases h; simp
    · cases hfc : findClose rest with
      | none => rw [hfc] at h; exact absurd h (by simp)
      | some pr =>
        rw [hfc] at h
        cases pr with
        | mk b2 r2 =>
          simp only [Option.some.injEq, Prod.mk.injEq] at h
          obtain ⟨h1, h2⟩ := h
          subst h2
          have := ih hfc
          simp only [List.length_cons]
          omega

/-- Core glob matcher over character lists (the semantics of the regex
produced by `fnmatch.translate`). -/
def fnmatchChars : List Char → List Char → Bool
  | [], s => s.isEmpty
  | '*' :: ps, s =>
    fnmatchChars ps s ||
      (match s with
       | [] => false
       | _ :: s2 => fnmatchChars ('*' :: ps) s2)
  | '?' :: ps, s =>
    (match s with
     | [] => false
     | _ :: s2 => fnmatchChars ps s2)
  | '[' :: ps, s =>
    let negAfter : Bool × List Char :=
      match ps with
      | '!' :: r => (true, r)
      | _ => (false, ps)
    let leadScan : List Char × List Char :=
      match negAfter.2 with
      | ']' :: r => ([']'], r)
      | _ => ([], negAfter.2)
    match hfc : findClose leadScan.2 with
    | none =>
      (match s with
       | [] => false
       | c :: s2 => (c = '[') && fnmatchChars ps s2)
    | some (body, rem) =>
      (match s with
       | [] => false
       | c :: s2 =>
         (negAfter.1 != classMatch (leadScan.1 ++ body) c) && fnmatchChars rem s2)
  | p :: ps, s =>
    (match s with
     | [] => false
     | c :: s2 => (p = c) && fnmatchChars ps s2)
termination_by p s => (p.length, s.length)
decreasing_by
  · simp_wf; omega
  · simp_wf; omega
  · simp_wf; omega
  · simp_wf; omega
  · simp_wf
    have h1 : rem.length < leadScan.2.length := findClose_length hfc
    have h2 : leadScan.2.length ≤ negAfter.2.length := by
      simp only [leadScan]
      split <;> simp_all <;> omega
    have h3 : negAfter.2.length ≤ ps.length := by
      simp only [negAfter]
      split <;> simp <;> omega
    omega
  · simp_wf; omega

/-- `fnmatch.fnmatch`: normcase both operands, then glob-match. -/
def fnmatch (posix : Bool) (name pat : String) : Bool :=
  fnmatchChars (normcase posix pat).data (normcase posix name).data

/-! ## Matcher

`Matcher.create` builds an `FNMatcher` when the pattern contains a
wildcard and a `ConstantMatcher` otherwise.  Both store
`os.path.normcase(pattern)` and the effective case-sensitivity flag. -/

inductive MatcherKind where
  | fnm : MatcherKind
  | constant : MatcherKind
  deriving DecidableEq, Repr

structure Matcher where
  kind : MatcherKind
  /-- `self.pattern = os.path.normcase(pattern)` -/
  pattern : String
  casesensitive : Bool
  deriving DecidableEq, Repr

namespace Matcher

/-- `Matcher.create(pattern, casesensitive)`. -/
def create (posix : Bool) (pattern : String) (casesensitive : Bool) : Matcher :=
  let cs := determine_casesensitive posix casesensitive
  if strContains pattern '?' || strContains pattern '*' then
    ⟨MatcherKind.fnm, normcase posix pattern, cs⟩
  else
    ⟨MatcherKind.constant, normcase posix pattern, cs⟩

/-- `FNMatcher.match` / `ConstantMatcher.match` (named `matchStr` because
`match` is reserved in Lean). -/
def matchStr (posix : Bool) (m : Matcher) (s : String) : Bool :=
  match m.kind with
  | MatcherKind.fnm =>
    if m.casesensitive then fnmatch posix s m.pattern
    else fnmatch posix (strLower s) (strLower m.pattern)
  | MatcherKind.constant =>
    if m.casesensitive then m.pattern = normcase posix s
    else strLower m.pattern = strLower (normcase posix s)

end Matcher

/-! ## Section

A contiguous `**`-free run of matchers.  The Python `Section` also
caches `length = len(elements)` and a canonical string used for
equality; the length is recomputed here and the string omitted. -/

structure Sect where
  elements : List Matcher
  bound_start : Bool
  bound_end : Bool
  deriving DecidableEq, Repr

namespace Sect

/-- `Section(elements)`: wrap each element in a `Matcher`; both anchors
start out false. -/
def ofElements (posix : Bool) (elements : List String) (casesensitive : Bool) : Sect :=
  ⟨elements.map (fun e => Matcher.create posix e casesensitive), false, false⟩

/-- `self.length` -/
def length (s : Sect) : Nat := s.elements.length

/-- All matchers of `s` match the consecutive path elements starting at
index `i` (the inner loop of `_match_iter_generic`). -/
def matchesAt (posix : Bool) (s : Sect) (path : List String) (i : Nat) : Bool :=
  (List.range s.length).all
    (fun k => (s.elements.getD k ⟨MatcherKind.constant, "", true⟩).matchStr posix
      (path.getD (i + k) ""))

/-- `Section._match_iter_generic` (the `len(elements) > 1` branch of
`match_iter`).  Indices are Python ints, hence `Int` here; the guard
established below ensures every yielded index is in range. -/
def matchIterGeneric (posix : Bool) (s : Sect) (path : List String)
    (start_at : Nat) : List Nat :=
  let length : Int := path.length
  let slen : Int := s.length
  let e : Int := if s.bound_start then 1 else length - slen + 1
  let start : Int := if s.bound_end then length - slen else (start_at : Int)
  if start > e || start < (start_at : Int) || e > length - slen + 1 then []
  else
    (List.range (e - start).toNat).filterMap
      (fun (k : Nat) =>
        if s.matchesAt posix path ((start + (k : Int)).toNat) then
          some ((start + (k : Int)).toNat + s.length)
        else none)

/-- `Section._match_iter_single` (the single-element fast path). -/
def matchIterSingle (posix : Bool) (s : Sect) (path : List String)
    (start_at : Nat) : List Nat :=
  let length := path.length
  if length = 0 then []
  -- If bound to end, we start searching as late as possible (and the
  -- early return `if start < start_at` becomes the second guard)
  else if s.bound_end && decide (length - 1 < start_at) then []
  else
    let start := if s.bound_end then length - 1 else start_at
    -- If bound to start, we stop searching at the first element;
    -- otherwise the early return `if start > end` is the third guard
    if !s.bound_start && decide (start > length) then []
    else
      let e := if s.bound_start then 1 else length
      (List.range (e - start)).filterMap
        (fun k =>
          if (s.elements.getD 0 ⟨MatcherKind.constant, "", true⟩).matchStr posix
              (path.getD (start + k) "") then some (start + k + 1) else none)

/-- `Section.match_iter`: dispatch on the element count. -/
def matchIter (posix : Bool) (s : Sect) (path : List String)
    (start_at : Nat) : List Nat :=
  if s.length = 1 then matchIterSingle posix s path start_at
  else matchIterGeneric posix s path start_at

end Sect

/-! ## MatchType: bitfields as in the source. -/

namespace MatchType

def BIT_MATCH : Nat := 1
def BIT_ALL_SUBDIRECTORIES : Nat := 2
def BIT_NO_SUBDIRECTORIES : Nat := 4

def NO_MATCH : Nat := 0
def MATCH : Nat := 1
def MATCH_ALL_SUBDIRECTORIES : Nat := 1 ||| 2
def MATCH_BUT_NO_SUBDIRECTORIES : Nat := 1 ||| 4
def NO_MATCH_NO_SUBDIRECTORIES : Nat := 4

end MatchType

/-! ## Pattern -/

structure Pattern where
  sections : List Sect
  bound_start : Bool
  bound_end : Bool
  file_pattern : String
  /-- The case-sensitivity flag captured by the `file_filter` closures. -/
  casesensitive : Bool
  deriving DecidableEq, Repr

instance : Inhabited Matcher := ⟨⟨MatcherKind.constant, "", true⟩⟩

namespace Pattern

/-- The loop body of `Pattern._simplify`: walk the elements keeping the
last appended element in `previous`; `..` raises, `.` and repeated `**`
are dropped, everything else is appended normcased. -/
def simplifyLoop (posix : Bool) (all : List String) :
    List String → Option String → List String → Except PyErr (List String)
  | [], _, acc => Except.ok acc
  | e :: rest, previous, acc =>
    if e = ".." then
      Except.error (PyErr.formicError
        ("Invalid glob: Cannot have \x27..\x27 in a glob: " ++ joinSlash all))
    else if e = "." then simplifyLoop posix all rest previous acc
    else if e = "**" && previous = some "**" then simplifyLoop posix all rest previous acc
    else simplifyLoop posix all rest (some e) (acc ++ [normcase posix e])

/-- `Pattern._simplify`.  The subscripts `simplified[-1]` and
`simplified[0]` raise `IndexError` when every element was discarded. -/
def simplify (posix : Bool) (elements : List String) : Except PyErr (List String) := do
  let simplified ← simplifyLoop posix elements elements none []
  match simplified.getLast? with
  | none => Except.error PyErr.indexError
  | some last =>
    -- Trailing slash shorthand for /**
    let s1 := if last = "" then simplified.dropLast ++ ["**"] else simplified
    match s1 with
    | [] => Except.error PyErr.indexError
    | first :: rest =>
      if first = "" then Except.ok rest
      else if first ≠ "**" then Except.ok ("**" :: first :: rest)
      else Except.ok (first :: rest)

/-- Split the directory elements into `Section`s at each `**`
(the fragment loop of `Pattern.__init__`). -/
def buildSections (posix : Bool) (casesensitive : Bool) :
    List String → List String → List Sect → List Sect
  | [], fragment, acc =>
    if fragment ≠ [] then acc ++ [Sect.ofElements posix fragment casesensitive] else acc
  | e :: rest, fragment, acc =>
    if e = "**" then
      if fragment ≠ [] then
        buildSections posix casesensitive rest []
          (acc ++ [Sect.ofElements posix fragment casesensitive])
      else buildSections posix casesensitive rest [] acc
    else buildSections posix casesensitive rest (fragment ++ [e]) acc

/-- Set a flag on the last section (`self.sections[-1].bound_end = True`). -/
def modifyLast (f : Sect → Sect) : List Sect → List Sect
  | [] => []
  | [a] => [f a]
  | a :: b :: rest => a :: modifyLast f (b :: rest)

/-- `Pattern.__init__(elements, casesensitive)`.  The constructor requires
a nonempty element list (callers guarantee it); `headD`/`getLastD` stand
for the Python subscripts. -/
def ofElements (posix : Bool) (elements : List String) (casesensitive : Bool) : Pattern :=
  let bound_start := elements.headD "" ≠ "**"
  let fileAndDirs : String × List String :=
    if elements.getLastD "" ≠ "**" then
      (normcase posix (elements.getLastD ""), elements.dropLast)
    else ("*", elements)
  let file_pattern := fileAndDirs.1
  let elements2 := fileAndDirs.2
  let bound_end := if elements2 ≠ [] then elements2.getLastD "" ≠ "**" else bound_start
  let sections0 := buildSections posix casesensitive elements2 [] []
  let sections1 :=
    if bound_start then sections0.modifyHead (fun s => { s with bound_start := true })
    else sections0
  let sections2 :=
    if bound_end then modifyLast (fun s => { s with bound_end := true }) sections1
    else sections1
  ⟨sections2, bound_start, bound_end, file_pattern, casesensitive⟩

/-- The recursive search of `Pattern.match_directory`.  The test
`if match | MatchType.MATCH:` in the source is a bitwise or with 1 and
therefore always truthy, so the loop over `section.match_iter` always
returns the recursion on the first yielded index. -/
def matchRecurse (posix : Bool) (pat : Pattern) :
    Bool → List Sect → List String → Nat → Nat
  | _, [], _, _ =>
    -- Termination of the recursion after finding the match.
    if pat.sections.length = 1 && pat.bound_start && pat.bound_end then
      MatchType.MATCH_BUT_NO_SUBDIRECTORIES
    else if pat.bound_end then MatchType.MATCH
    else MatchType.MATCH_ALL_SUBDIRECTORIES
  | isStart, sec :: rest, path, location =>
    match Sect.matchIter posix sec path location with
    | e :: _ => matchRecurse posix pat false rest path e
    | [] =>
      if isStart && pat.bound_start then
        if path.length ≥ sec.elements.length then
          MatchType.NO_MATCH_NO_SUBDIRECTORIES
        else
          if sec.length > path.length && path.length > 0 then
            if ¬ ((sec.elements.getD (path.length - 1) default).matchStr posix
                (path.getLastD "")) then
              MatchType.NO_MATCH_NO_SUBDIRECTORIES
            else MatchType.NO_MATCH
          else MatchType.NO_MATCH
      else MatchType.NO_MATCH

/-- `Pattern.match_directory`. -/
def match_directory (posix : Bool) (pat : Pattern) (path_elements : List String) : Nat :=
  if pat.sections ≠ [] then matchRecurse posix pat true pat.sections path_elements 0
  else if pat.bound_start then
    if path_elements.length = 0 then MatchType.MATCH_BUT_NO_SUBDIRECTORIES
    else MatchType.NO_MATCH_NO_SUBDIRECTORIES
  else MatchType.MATCH_ALL_SUBDIRECTORIES

/-- `Pattern.all_files`. -/
def all_files (pat : Pattern) : Bool := pat.file_pattern = "*"

/-- The `file_filter` closure of `Pattern.__init__` as a per-file
predicate: the all-files, wildcard and constant fast paths. -/
def fileAccepts (posix : Bool) (pat : Pattern) (f : String) : Bool :=
  if pat.file_pattern = "*" then true
  else if strContains pat.file_pattern '*' || strContains pat.file_pattern '?' then
    if pat.casesensitive then fnmatch posix f pat.file_pattern
    else fnmatch posix (strLower f) (strLower pat.file_pattern)
  else
    if pat.casesensitive then normcase posix f = pat.file_pattern
    else strLower (normcase posix f) = strLower pat.file_pattern

end Pattern

/-- Result of `Pattern.create`: a single `Pattern` or a `PatternSet`
holding the two expanded patterns. -/
inductive CreateResult where
  | single : Pattern → CreateResult
  | pset : List Pattern → CreateResult
  deriving DecidableEq, Repr

/-- `glob.replace(chr(92), "/")`: a single-character replacement is a
character map. -/
def backslashToSlash (s : String) : String :=
  ⟨s.data.map (fun c => if c = '\\' then '/' else c)⟩

/-- `.replace("//", "/")`: one left-to-right non-overlapping pass. -/
def collapseDoubleSlash : List Char → List Char
  | '/' :: '/' :: rest => '/' :: collapseDoubleSlash rest
  | c :: rest => c :: collapseDoubleSlash rest
  | [] => []

/-- `.split("/")`. -/
def splitSlash : List Char → List (List Char)
  | [] => [[]]
  | c :: rest =>
    if c = '/' then [] :: splitSlash rest
    else
      match splitSlash rest with
      | [] => [[c]]
      | h :: t => (c :: h) :: t

/-- The element list `Pattern.create` hands to `Pattern._simplify`:
backslashes become slashes, doubled slashes collapse once, then split. -/
def globElements (glob : String) : List String :=
  (splitSlash (collapseDoubleSlash (backslashToSlash glob).data)).map String.mk

/-- `Pattern.create(glob, casesensitive)`. -/
def Pattern.create (posix : Bool) (glob : String) (casesensitive : Bool) :
    Except PyErr CreateResult := do
  let cs := determine_casesensitive posix casesensitive
  let elements ← Pattern.simplify posix (globElements glob)
  if elements.length > 1 && elements.getLastD "" = "**" then
    Except.ok (CreateResult.pset
      [Pattern.ofElements posix elements cs,
       Pattern.ofElements posix elements.dropLast cs])
  else
    Except.ok (CreateResult.single (Pattern.ofElements posix elements cs))

/-! ## PatternSet and FileSet construction -/

/-- `PatternSet`: the member list.  The `_all_files` cache is modelled by
recomputation (`allFiles` below); patterns are only ever appended, never
mutated, so the cache always agrees with the recomputation. -/
structure PatternSet where
  patterns : List Pattern
  deriving DecidableEq, Repr

namespace PatternSet

/-- `PatternSet.all_files()`. -/
def allFiles (ps : PatternSet) : Bool := ps.patterns.any Pattern.all_files

/-- `PatternSet.empty()`. -/
def empty (ps : PatternSet) : Bool := ps.patterns.length = 0

/-- Python truthiness of a `PatternSet` instance: the class defines
neither `__bool__` (`__nonzero__`) nor `__len__`, so every instance is
truthy and `not ps` is always `False`. -/
def pyNot (_ : PatternSet) : Bool := false

end PatternSet

/-- `Pattern.match_files(matched, unmatched)`: move the accepted members
of `unmatched` into `matched`. -/
def Pattern.match_files (posix : Bool) (pat : Pattern)
    (matched unmatched : Finset String) : Finset String × Finset String :=
  let this_match := unmatched.filter (fun f => pat.fileAccepts posix f)
  (matched ∪ this_match, unmatched \ this_match)

/-- An element of the `include`/`exclude` constructor arguments: a glob
string or an already compiled `Pattern`. -/
inductive GlobArg where
  | str : String → GlobArg
  | pat : Pattern → GlobArg
  deriving DecidableEq, Repr

/-- `FileSet._preprocess`: build a `PatternSet` from the argument
(`none` models the Python `None`). -/
def preprocess (posix : Bool) (argument : Option (List GlobArg))
    (casesensitive : Bool) : Except PyErr PatternSet := do
  match argument with
  | none => Except.ok ⟨[]⟩
  | some globs =>
    let mut acc : List Pattern := []
    for g in globs do
      match g with
      | GlobArg.str s =>
        match ← Pattern.create posix s casesensitive with
        | CreateResult.single p => acc := acc ++ [p]
        | CreateResult.pset ps => acc := acc ++ ps
      | GlobArg.pat p => acc := acc ++ [p]
    Except.ok ⟨acc⟩

/-- The globs of `get_initial_default_excludes`. -/
def defaultExcludeGlobs : List String :=
  ["**/__pycache__/**/*", "**/*~", "**/#*#", "**/.#*", "**/%*%", "**/._*",
   "**/CVS", "**/CVS/**/*", "**/.cvsignore", "**/SCCS", "**/SCCS/**/*",
   "**/vssver.scc", "**/.svn", "**/.svn/**/*", "**/.DS_Store", "**/.git",
   "**/.git/**/*", "**/.gitattributes", "**/.gitignore", "**/.gitmodules",
   "**/.hg", "**/.hg/**/*", "**/.hgignore", "**/.hgsub", "**/.hgsubstate",
   "**/.hgtags", "**/.bzr", "**/.bzr/**/*", "**/.bzrignore"]

/-- `FileSet.DEFAULT_EXCLUDES` (each of the globs compiles to a single
pattern, so the flattening is exact). -/
def DEFAULT_EXCLUDES (posix : Bool) : List Pattern :=
  defaultExcludeGlobs.flatMap (fun g =>
    match Pattern.create posix g true with
    | Except.ok (CreateResult.single p) => [p]
    | Except.ok (CreateResult.pset ps) => ps
    | Except.error _ => [])

/-- The configuration `FileSet.__init__` stores (directory, walker and
symlink plumbing omitted — the walker is injected below). -/
structure FileSet where
  include_ : PatternSet
  exclude : PatternSet
  deriving DecidableEq, Repr

/-- `FileSet.__init__(include, exclude, default_excludes, casesensitive)`.
The guard `if not self.include:` uses `PatternSet.pyNot`, which is
constantly false, so the `FormicError` branch is unreachable. -/
def FileSet.init (posix : Bool) (include_ : Option (List GlobArg))
    (exclude : Option (List GlobArg)) (default_excludes : Bool)
    (casesensitive : Bool) : Except PyErr FileSet := do
  let cs := determine_casesensitive posix casesensitive
  let inc ← preprocess posix include_ cs
  if inc.pyNot then
    Except.error (PyErr.formicError
      "No include globs have been specified- nothing to find")
  else
    let exc ← preprocess posix exclude cs
    let exc := if default_excludes then ⟨exc.patterns ++ DEFAULT_EXCLUDES posix⟩ else exc
    Except.ok ⟨inc, exc⟩

/-! ## FileSetState

A `FileSetState` is modelled as the nonempty list of its frame and the
frames of its parent chain (`[]` corresponds to the Python `None`). -/

structure StateFrame where
  path_elements : List String
  parent_has_patterns : Bool
  matched_inherit : List Pattern
  matched_and_subdir : List Pattern
  matched_no_subdir : List Pattern
  unmatched : List Pattern
  deriving DecidableEq, Repr

def FileSetState := List StateFrame

namespace FileSetState

/-- `FileSetState._find_parent`: climb the chain until the frame's
`path_elements` is a prefix of the argument (the root frame terminates
automatically).  The empty chain stands for the Python `AttributeError`
on `None._find_parent` and is unreachable for rooted chains. -/
def findParent : FileSetState → List String → FileSetState
  | [], _ => []
  | f :: rest, pe =>
    if f.path_elements = [] then f :: rest
    else if f.path_elements = pe.take f.path_elements.length then f :: rest
    else findParent rest pe

/-- The classification conditions of `FileSetState.__init__`, one per
destination bag of the snapshot loop over `unmatched`. -/
def inheritCond (posix : Bool) (pe : List String) (p : Pattern) : Bool :=
  let m := p.match_directory posix pe
  ((m &&& MatchType.BIT_MATCH) != 0) && ((m &&& MatchType.BIT_ALL_SUBDIRECTORIES) != 0)

def noSubCond (posix : Bool) (pe : List String) (p : Pattern) : Bool :=
  let m := p.match_directory posix pe
  ((m &&& MatchType.BIT_MATCH) != 0) && ((m &&& MatchType.BIT_ALL_SUBDIRECTORIES) == 0)
    && ((m &&& MatchType.BIT_NO_SUBDIRECTORIES) != 0)

def andSubCond (posix : Bool) (pe : List String) (p : Pattern) : Bool :=
  let m := p.match_directory posix pe
  ((m &&& MatchType.BIT_MATCH) != 0) && ((m &&& MatchType.BIT_ALL_SUBDIRECTORIES) == 0)
    && ((m &&& MatchType.BIT_NO_SUBDIRECTORIES) == 0)

def unmatchedCond (posix : Bool) (pe : List String) (p : Pattern) : Bool :=
  let m := p.match_directory posix pe
  ((m &&& MatchType.BIT_MATCH) == 0) && ((m &&& MatchType.BIT_NO_SUBDIRECTORIES) == 0)

def classifyInherit (posix : Bool) (pe : List String) (pats : List Pattern) : List Pattern :=
  pats.filter (inheritCond posix pe)

def classifyNoSubdir (posix : Bool) (pe : List String) (pats : List Pattern) : List Pattern :=
  pats.filter (noSubCond posix pe)

def classifyAndSubdir (posix : Bool) (pe : List String) (pats : List Pattern) : List Pattern :=
  pats.filter (andSubCond posix pe)

def classifyUnmatched (posix : Bool) (pe : List String) (pats : List Pattern) : List Pattern :=
  pats.filter (unmatchedCond posix pe)

/-- `FileSetState.__init__(label, directory, based_on, unmatched)`. -/
def create (posix : Bool) (pe : List String) (based_on : Option FileSetState)
    (seed : List Pattern) : FileSetState :=
  let parent : FileSetState :=
    match based_on with
    | some b => findParent b pe
    | none => []
  let phpAndPool : Bool × List Pattern :=
    match parent with
    | pf :: _ =>
      (pf.parent_has_patterns || !(pf.matched_inherit.isEmpty),
        pf.matched_and_subdir ++ pf.unmatched)
    | [] => (false, seed)
  let pool := phpAndPool.2
  { path_elements := pe
    parent_has_patterns := phpAndPool.1
    matched_inherit := classifyInherit posix pe pool
    matched_and_subdir := classifyAndSubdir posix pe pool
    matched_no_subdir := classifyNoSubdir posix pe pool
    unmatched := classifyUnmatched posix pe pool : StateFrame } :: parent

/-- The inherited part of `FileSetState._matching_pattern_sets`: collect
`matched_inherit` climbing while `parent_has_patterns` holds.  (The
source guards `if ref.matched_inherit:` are Python object truthiness and
always true.) -/
def climbInherit : FileSetState → List Pattern
  | [] => []
  | f :: rest => f.matched_inherit ++ (if f.parent_has_patterns then climbInherit rest else [])

/-- `FileSetState._matching_pattern_sets` flattened by
`chain.from_iterable` (the guard `if self.matched_and_subdir:` is object
truthiness, hence always true). -/
def matchingPatterns : FileSetState → List Pattern
  | [] => []
  | f :: rest => f.matched_and_subdir ++ f.matched_no_subdir ++ climbInherit (f :: rest)

/-- The matched/unmatched loop shared by `FileSetState.match` and
`PatternSet.match_files`, with the early break once everything is
matched. -/
def matchFilesLoop (posix : Bool) : List Pattern → Finset String → Finset String → Finset String
  | [], m, _ => m
  | p :: ps, m, u =>
    if u = ∅ then m
    else
      let mu := p.match_files posix m u
      matchFilesLoop posix ps mu.1 mu.2

/-- `FileSetState.match(files)` (named `matchSet`; `match` is reserved). -/
def matchSet (posix : Bool) (s : FileSetState) (files : Finset String) : Finset String :=
  if files = ∅ then ∅
  else
    match s with
    | [] => ∅
    | f :: rest =>
      if f.matched_inherit.any Pattern.all_files
          || f.matched_and_subdir.any Pattern.all_files
          || f.matched_no_subdir.any Pattern.all_files then files
      else matchFilesLoop posix (matchingPatterns (f :: rest)) ∅ files

/-- `FileSetState.matches_all_files_all_subdirs`. -/
def matches_all_files_all_subdirs : FileSetState → Bool
  | [] => false
  | f :: _ => f.matched_inherit.any Pattern.all_files

/-- `FileSetState.no_possible_matches_in_subdirs`. -/
def no_possible_matches_in_subdirs : FileSetState → Bool
  | [] => false
  | f :: _ =>
    !f.parent_has_patterns && f.matched_inherit.isEmpty
      && f.matched_and_subdir.isEmpty && f.unmatched.isEmpty

end FileSetState

/-! ## The traversal: `FileSet._receive` and `FileSet.files`

The injectable walker is a finite directory tree (`os.walk` semantics:
the tree below the starting directory, each node a list of named
subtrees plus a file list; pruning empties the subdirectory list so the
walk never descends). -/

/-- `FileSet._receive` with `symlinks=True`: returns the matched set,
the two new states, and whether `dirs` was emptied in place. -/
def receive (posix : Bool) (fs : FileSet) (pe : List String)
    (files : List String) (incPrev excPrev : Option FileSetState) :
    Finset String × FileSetState × FileSetState × Bool :=
  let include_ := FileSetState.create posix pe incPrev
    (if incPrev.isNone then fs.include_.patterns else [])
  let exclude := FileSetState.create posix pe excPrev
    (if excPrev.isNone then fs.exclude.patterns else [])
  if exclude.matches_all_files_all_subdirs then (∅, include_, exclude, true)
  else
    let m0 := include_.matchSet posix files.toFinset
    let matched := m0 \ exclude.matchSet posix m0
    if include_.no_possible_matches_in_subdirs then (matched, include_, exclude, true)
    else (matched, include_, exclude, false)

/-- A walker tree: named subdirectories and the file names of this
directory. -/
inductive FTree where
  | node : List (String × FTree) → List String → FTree
  deriving Repr

/- The full walker output without any pruning: depth-first pre-order
`(relative path elements, files)` pairs. -/
mutual
def walkAll : FTree → List String → List (List String × List String)
  | FTree.node dirs files, pe => (pe, files) :: walkAllList dirs pe

def walkAllList : List (String × FTree) → List String → List (List String × List String)
  | [], _ => []
  | (name, t) :: rest, pe => walkAll t (pe ++ [name]) ++ walkAllList rest pe
end

/- `FileSet.files()` over the injected walker, threading the
include/exclude states from one yielded directory to the next and
honouring the in-place `del dirs[0:]` pruning. -/
mutual
def runWalk (posix : Bool) (fs : FileSet) :
    FTree → List String → Option FileSetState → Option FileSetState →
    List (List String × Finset String) × FileSetState × FileSetState
  | FTree.node dirs files, pe, incPrev, excPrev =>
    let r := receive posix fs pe files incPrev excPrev
    let matched := r.1
    let include_ := r.2.1
    let exclude := r.2.2.1
    let pruned := r.2.2.2
    if pruned then ([(pe, matched)], include_, exclude)
    else
      let rest := runWalkList posix fs dirs pe include_ exclude
      ((pe, matched) :: rest.1, rest.2.1, rest.2.2)

def runWalkList (posix : Bool) (fs : FileSet) :
    List (String × FTree) → List String → FileSetState → FileSetState →
    List (List String × Finset String) × FileSetState × FileSetState
  | [], _, inc, exc => ([], inc, exc)
  | (name, t) :: rest, pe, inc, exc =>
    let r1 := runWalk posix fs t (pe ++ [name]) (some inc) (some exc)
    let r2 := runWalkList posix fs rest pe r1.2.1 r1.2.2
    (r1.1 ++ r2.1, r2.2.1, r2.2.2)
end

/-- Collect `(relative_dir, file)` pairs from per-directory result
sets. -/
def pairsOf (l : List (List String × Finset String)) : Finset (List String × String) :=
  l.foldl (fun acc d => acc ∪ d.2.image (fun f => (d.1, f))) ∅

/-- The emitted `(relative_dir, file)` pairs of the pruned traversal, as
a set. -/
def emittedSet (posix : Bool) (fs : FileSet) (t : FTree) :
    Finset (List String × String) :=
  pairsOf (runWalk posix fs t [] none none).1

/-- Brute force per directory, straight from the spec: the files
accepted by some include pattern matching the directory, minus those
accepted by some exclude pattern matching it. -/
def dirBrute (posix : Bool) (fs : FileSet) (pe : List String)
    (files : List String) : Finset String :=
  files.toFinset.filter (fun f =>
    (fs.include_.patterns.any (fun p =>
      ((p.match_directory posix pe &&& MatchType.BIT_MATCH) != 0)
        && p.fileAccepts posix f))
    && !(fs.exclude.patterns.any (fun p =>
      ((p.match_directory posix pe &&& MatchType.BIT_MATCH) != 0)
        && p.fileAccepts posix f)))

/-- The brute-force pair set over the unpruned walker output. -/
def bruteSet (posix : Bool) (fs : FileSet) (t : FTree) :
    Finset (List String × String) :=
  pairsOf ((walkAll t []).map (fun d => (d.1, dirBrute posix fs d.1 d.2)))

/-! ## MatchType soundness machinery -/


instance : Inhabited Sect := ⟨⟨[], false, false⟩⟩

def Sect.validAnchor (posix : Bool) (s : Sect) (path : List String) (i : Nat) : Prop :=
  (s.bound_start = true → i = 0) ∧
  (s.bound_end = true → i + s.length = path.length) ∧
  i + s.length ≤ path.length ∧
  s.matchesAt posix path i = true

theorem mem_filterMap_range_iff (m : Nat) (start : Int) (n : Nat) (P : Nat → Bool)
    (r : Nat) (hstart : 0 ≤ start) :
    (r ∈ (List.range m).filterMap
        (fun (k : Nat) => if P ((start + (k : Int)).toNat) then
          some ((start + (k : Int)).toNat + n) else none)) ↔
      ∃ i : Nat, start ≤ (i : Int) ∧ (i : Int) < start + m ∧ P i = true ∧ r = i + n := by
  rw [List.mem_filterMap]
  constructor
  · rintro ⟨k, hk, hfk⟩
    rw [List.mem_range] at hk
    split_ifs at hfk with hp
    · simp only [Option.some.injEq] at hfk
      exact ⟨(start + (k : Int)).toNat, by omega, by omega, hp, hfk.symm⟩
  · rintro ⟨i, h1, h2, hp, hr⟩
    refine ⟨(i - start).toNat, ?_, ?_⟩
    · rw [List.mem_range]; omega
    · have hix : (start + (((i : Int) - start).toNat : Int)).toNat = i := by omega
      rw [hix, if_pos hp, hr]

theorem Sect.mem_matchIterGeneric (posix : Bool) (s : Sect) (path : List String)
    (st r : Nat) :
    r ∈ Sect.matchIterGeneric posix s path st ↔
      ∃ i, st ≤ i ∧ s.validAnchor posix path i ∧ r = i + s.length := by
  unfold Sect.matchIterGeneric Sect.validAnchor
  by_cases hbs : s.bound_start = true <;> by_cases hbe : s.bound_end = true <;>
    simp only [hbs, hbe, if_true, if_false, Bool.false_eq_true, ite_true, ite_false] <;>
    split_ifs with hguard
  -- (bs, be) = (T, T), guard
  · simp only [Bool.or_eq_true, decide_eq_true_eq] at hguard
    simp only [List.not_mem_nil, false_iff]
    rintro ⟨i, hsti, ⟨h1, h2, h3, h4⟩, hr⟩
    have hi0 := h1 trivial
    have hiL := h2 trivial
    omega
  -- (T, T), no guard
  · simp only [Bool.or_eq_true, decide_eq_true_eq, not_or, not_lt] at hguard
    obtain ⟨⟨hg1, hg2⟩, hg3⟩ := hguard
    rw [mem_filterMap_range_iff _ _ s.length (fun i => Sect.matchesAt posix s path i) r
      (by omega)]
    refine exists_congr fun i => ?_
    constructor
    · rintro ⟨ha1, ha2, hp, hr⟩
      exact ⟨by omega, ⟨fun _ => by omega, fun _ => by omega, by omega, hp⟩, hr⟩
    · rintro ⟨hsti, ⟨h1, h2, h3, h4⟩, hr⟩
      have hi0 := h1 trivial
      have hiL := h2 trivial
      exact ⟨by omega, by omega, h4, hr⟩
  -- (T, F), guard
  · simp only [Bool.or_eq_true, decide_eq_true_eq] at hguard
    simp only [List.not_mem_nil, false_iff]
    rintro ⟨i, hsti, ⟨h1, h2, h3, h4⟩, hr⟩
    have hi0 := h1 trivial
    rcases hguard with (hg | hg) | hg <;> omega
  -- (T, F), no guard
  · simp only [Bool.or_eq_true, decide_eq_true_eq, not_or, not_lt] at hguard
    obtain ⟨⟨hg1, hg2⟩, hg3⟩ := hguard
    rw [mem_filterMap_range_iff _ _ s.length (fun i => Sect.matchesAt posix s path i) r
      (by omega)]
    refine exists_congr fun i => ?_
    constructor
    · rintro ⟨ha1, ha2, hp, hr⟩
      exact ⟨by omega, ⟨fun _ => by omega, False.elim, by omega, hp⟩, hr⟩
    · rintro ⟨hsti, ⟨h1, h2, h3, h4⟩, hr⟩
      have hi0 := h1 trivial
      exact ⟨by omega, by omega, h4, hr⟩
  -- (F, T), guard
  · simp only [Bool.or_eq_true, decide_eq_true_eq] at hguard
    simp only [List.not_mem_nil, false_iff]
    rintro ⟨i, hsti, ⟨h1, h2, h3, h4⟩, hr⟩
    have hiL := h2 trivial
    rcases hguard with (hg | hg) | hg <;> omega
  -- (F, T), no guard
  · simp only [Bool.or_eq_true, decide_eq_true_eq, not_or, not_lt] at hguard
    obtain ⟨⟨hg1, hg2⟩, hg3⟩ := hguard
    rw [mem_filterMap_range_iff _ _ s.length (fun i => Sect.matchesAt posix s path i) r
      (by omega)]
    refine exists_congr fun i => ?_
    constructor
    · rintro ⟨ha1, ha2, hp, hr⟩
      exact ⟨by omega, ⟨False.elim, fun _ => by omega, by omega, hp⟩, hr⟩
    · rintro ⟨hsti, ⟨h1, h2, h3, h4⟩, hr⟩
      have hiL := h2 trivial
      exact ⟨by omega, by omega, h4, hr⟩
  -- (F, F), guard
  · simp only [Bool.or_eq_true, decide_eq_true_eq] at hguard
    simp only [List.not_mem_nil, false_iff]
    rintro ⟨i, hsti, ⟨h1, h2, h3, h4⟩, hr⟩
    rcases hguard with (hg | hg) | hg <;> omega
  -- (F, F), no guard
  · simp only [Bool.or_eq_true, decide_eq_true_eq, not_or, not_lt] at hguard
    obtain ⟨⟨hg1, hg2⟩, hg3⟩ := hguard
    rw [mem_filterMap_range_iff _ _ s.length (fun i => Sect.matchesAt posix s path i) r
      (by omega)]
    refine exists_congr fun i => ?_
    constructor
    · rintro ⟨ha1, ha2, hp, hr⟩
      exact ⟨by omega, ⟨False.elim, False.elim, by omega, hp⟩, hr⟩
    · rintro ⟨hsti, ⟨h1, h2, h3, h4⟩, hr⟩
      exact ⟨by omega, by omega, h4, hr⟩


theorem mem_filterMap_range_nat_iff (m start : Nat) (P : Nat → Bool) (r : Nat) :
    (r ∈ (List.range m).filterMap
        (fun k => if P (start + k) then some (start + k + 1) else none)) ↔
      ∃ i : Nat, start ≤ i ∧ i < start + m ∧ P i = true ∧ r = i + 1 := by
  rw [List.mem_filterMap]
  constructor
  · rintro ⟨k, hk, hfk⟩
    rw [List.mem_range] at hk
    split_ifs at hfk with hp
    · simp only [Option.some.injEq] at hfk
      exact ⟨start + k, by omega, by omega, hp, hfk.symm⟩
  · rintro ⟨i, h1, h2, hp, hr⟩
    refine ⟨i - start, ?_, ?_⟩
    · rw [List.mem_range]; omega
    · have hix : start + (i - start) = i := by omega
      rw [hix, if_pos hp, hr]

theorem Sect.matchesAt_length_one (posix : Bool) (s : Sect) (path : List String)
    (i : Nat) (h : s.length = 1) :
    s.matchesAt posix path i
      = (s.elements.getD 0 ⟨MatcherKind.constant, "", true⟩).matchStr posix
          (path.getD i "") := by
  unfold Sect.matchesAt
  rw [h, show List.range 1 = [0] from rfl]
  simp

theorem Sect.mem_matchIterSingle (posix : Bool) (s : Sect) (path : List String)
    (st r : Nat) (hlen : s.length = 1) :
    r ∈ Sect.matchIterSingle posix s path st ↔
      ∃ i, st ≤ i ∧ s.validAnchor posix path i ∧ r = i + s.length := by
  unfold Sect.matchIterSingle Sect.validAnchor
  rw [hlen]
  by_cases hL : path.length = 0
  · rw [if_pos hL]
    simp only [List.not_mem_nil, false_iff]
    rintro ⟨i, hsti, ⟨h1, h2, h3, h4⟩, hr⟩
    omega
  · rw [if_neg hL]
    by_cases hbs : s.bound_start = true <;> by_cases hbe : s.bound_end = true <;>
      simp only [hbs, hbe, if_true, if_false, Bool.false_eq_true, ite_true, ite_false,
        Bool.true_and, Bool.false_and, Bool.not_true, Bool.not_false, Bool.and_self]
    -- (T, T)
    · by_cases hst : path.length - 1 < st
      · rw [if_pos (by simpa using hst)]
        simp only [List.not_mem_nil, false_iff]
        rintro ⟨i, hsti, ⟨h1, h2, h3, h4⟩, hr⟩
        have := h1 trivial
        have := h2 trivial
        omega
      · rw [if_neg (by simpa using hst)]
        rw [mem_filterMap_range_nat_iff (1 - (path.length - 1)) (path.length - 1)
          (fun i => (s.elements.getD 0 ⟨MatcherKind.constant, "", true⟩).matchStr posix
            (path.getD i "")) r]
        refine exists_congr fun i => ?_
        rw [Sect.matchesAt_length_one posix s path i hlen]
        constructor
        · rintro ⟨h1, h2, hp, hr⟩
          exact ⟨by omega, ⟨fun _ => by omega, fun _ => by omega, by omega, hp⟩, hr⟩
        · rintro ⟨hsti, ⟨h1, h2, h3, h4⟩, hr⟩
          have := h1 trivial
          have := h2 trivial
          exact ⟨by omega, by omega, h4, hr⟩
    -- (T, F)
    · rw [mem_filterMap_range_nat_iff (1 - st) st
        (fun i => (s.elements.getD 0 ⟨MatcherKind.constant, "", true⟩).matchStr posix
          (path.getD i "")) r]
      refine exists_congr fun i => ?_
      rw [Sect.matchesAt_length_one posix s path i hlen]
      constructor
      · rintro ⟨h1, h2, hp, hr⟩
        exact ⟨by omega, ⟨fun _ => by omega, False.elim, by omega, hp⟩, hr⟩
      · rintro ⟨hsti, ⟨h1, h2, h3, h4⟩, hr⟩
        have := h1 trivial
        exact ⟨by omega, by omega, h4, hr⟩
    -- (F, T)
    · by_cases hst : path.length - 1 < st
      · rw [if_pos (by simpa using hst)]
        simp only [List.not_mem_nil, false_iff]
        rintro ⟨i, hsti, ⟨h1, h2, h3, h4⟩, hr⟩
        have := h2 trivial
        omega
      · rw [if_neg (by simpa using hst)]
        rw [if_neg (by simp only [Bool.and_eq_true, decide_eq_true_eq]; omega)]
        rw [mem_filterMap_range_nat_iff (path.length - (path.length - 1)) (path.length - 1)
          (fun i => (s.elements.getD 0 ⟨MatcherKind.constant, "", true⟩).matchStr posix
            (path.getD i "")) r]
        refine exists_congr fun i => ?_
        rw [Sect.matchesAt_length_one posix s path i hlen]
        constructor
        · rintro ⟨h1, h2, hp, hr⟩
          exact ⟨by omega, ⟨False.elim, fun _ => by omega, by omega, hp⟩, hr⟩
        · rintro ⟨hsti, ⟨h1, h2, h3, h4⟩, hr⟩
          have := h2 trivial
          exact ⟨by omega, by omega, h4, hr⟩
    -- (F, F)
    · by_cases hgt : st > path.length
      · rw [if_pos (by simpa using hgt)]
        simp only [List.not_mem_nil, false_iff]
        rintro ⟨i, hsti, ⟨h1, h2, h3, h4⟩, hr⟩
        omega
      · rw [if_neg (by simpa using hgt)]
        rw [mem_filterMap_range_nat_iff (path.length - st) st
          (fun i => (s.elements.getD 0 ⟨MatcherKind.constant, "", true⟩).matchStr posix
            (path.getD i "")) r]
        refine exists_congr fun i => ?_
        rw [Sect.matchesAt_length_one posix s path i hlen]
        constructor
        · rintro ⟨h1, h2, hp, hr⟩
          exact ⟨by omega, ⟨False.elim, False.elim, by omega, hp⟩, hr⟩
        · rintro ⟨hsti, ⟨h1, h2, h3, h4⟩, hr⟩
          exact ⟨by omega, by omega, h4, hr⟩

theorem Sect.mem_matchIter (posix : Bool) (s : Sect) (path : List String)
    (st r : Nat) :
    r ∈ Sect.matchIter posix s path st ↔
      ∃ i, st ≤ i ∧ s.validAnchor posix path i ∧ r = i + s.length := by
  unfold Sect.matchIter
  by_cases h : s.length = 1
  · rw [if_pos h]
    exact Sect.mem_matchIterSingle posix s path st r h
  · rw [if_neg h]
    exact Sect.mem_matchIterGeneric posix s path st r


theorem pairwise_le_filterMap_range (m : Nat) (g : Nat → Nat)
    (hg : ∀ a b, a < b → g a ≤ g b) (P : Nat → Bool) :
    ((List.range m).filterMap
      (fun k => if P k then some (g k) else none)).Pairwise (· ≤ ·) := by
  rw [List.pairwise_filterMap]
  refine (List.pairwise_lt_range m).imp ?_
  intro a b hab x hx y hy
  split_ifs at hx hy with h1 h2
  · simp only [Option.mem_def, Option.some.injEq] at hx hy
    subst hx
    subst hy
    exact hg a b hab
  · simp at hy
  · simp at hx
  · simp at hx

theorem Sect.matchIter_pairwise (posix : Bool) (s : Sect) (path : List String)
    (st : Nat) : (s.matchIter posix path st).Pairwise (· ≤ ·) := by
  unfold Sect.matchIter Sect.matchIterGeneric Sect.matchIterSingle
  by_cases hbs : s.bound_start = true <;> by_cases hbe : s.bound_end = true <;>
    simp only [hbs, hbe, if_true, if_false, Bool.false_eq_true, ite_true, ite_false,
      Bool.true_and, Bool.false_and, Bool.not_true, Bool.not_false, Bool.and_self] <;>
    split_ifs <;>
    first
      | exact List.Pairwise.nil
      | exact pairwise_le_filterMap_range _ _ (fun a b hab => by omega) _

theorem head_le_of_pairwise {r0 : Nat} {t l : List Nat}
    (hp : l.Pairwise (· ≤ ·)) (hl : l = r0 :: t) : ∀ r ∈ l, r0 ≤ r := by
  subst hl
  intro r hr
  rcases List.mem_cons.mp hr with h | h
  · omega
  · exact (List.pairwise_cons.mp hp).1 r h


/-- Declarative matchability: the sections can be consumed in order
starting from `loc` (mirrors the search space of `match_recurse`). -/
def matchableB (posix : Bool) : List Sect → List String → Nat → Bool
  | [], _, _ => true
  | sec :: rest, path, loc =>
    (sec.matchIter posix path loc).any (fun e => matchableB posix rest path e)

theorem Sect.mem_matchIter_mono (posix : Bool) (s : Sect) (path : List String)
    {st st2 r : Nat} (h : st2 ≤ st) (hmem : r ∈ s.matchIter posix path st) :
    r ∈ s.matchIter posix path st2 := by
  rw [Sect.mem_matchIter] at hmem ⊢
  obtain ⟨i, hi, hv, hr⟩ := hmem
  exact ⟨i, by omega, hv, hr⟩

theorem matchableB_antitone (posix : Bool) (secs : List Sect) (path : List String)
    {loc loc2 : Nat} (h : loc2 ≤ loc) (hm : matchableB posix secs path loc = true) :
    matchableB posix secs path loc2 = true := by
  cases secs with
  | nil => rfl
  | cons sec rest =>
    rw [matchableB, List.any_eq_true] at hm ⊢
    obtain ⟨e, he, hme⟩ := hm
    exact ⟨e, Sect.mem_matchIter_mono posix sec path h he, hme⟩

/-- Because the iterator yields candidate positions in increasing order
and matchability is antitone in the start position, the whole
disjunction over the yields is equivalent to its first element. -/
theorem matchableB_any_head (posix : Bool) (sec : Sect) (rest : List Sect)
    (path : List String) (loc e0 : Nat) (t : List Nat)
    (hiter : sec.matchIter posix path loc = e0 :: t) :
    (sec.matchIter posix path loc).any (fun e => matchableB posix rest path e)
      = matchableB posix rest path e0 := by
  cases hm : matchableB posix rest path e0 with
  | true =>
    rw [List.any_eq_true]
    exact ⟨e0, by rw [hiter]; exact List.mem_cons_self e0 t, hm⟩
  | false =>
    rw [List.any_eq_false]
    intro x hx
    cases hmx : matchableB posix rest path x with
    | false => simp
    | true =>
      have hle : e0 ≤ x :=
        head_le_of_pairwise (Sect.matchIter_pairwise posix sec path loc) hiter x hx
      have h2 := matchableB_antitone posix rest path hle hmx
      rw [h2] at hm
      exact absurd hm (by simp)

/-- The value `match_recurse` returns once all sections are consumed. -/
def termValue (pat : Pattern) : Nat :=
  if pat.sections.length = 1 && pat.bound_start && pat.bound_end then
    MatchType.MATCH_BUT_NO_SUBDIRECTORIES
  else if pat.bound_end then MatchType.MATCH
  else MatchType.MATCH_ALL_SUBDIRECTORIES

theorem matchRecurse_of_matchable (posix : Bool) (pat : Pattern) :
    ∀ (secs : List Sect) (isStart : Bool) (path : List String) (loc : Nat),
      matchableB posix secs path loc = true →
      Pattern.matchRecurse posix pat isStart secs path loc = termValue pat := by
  intro secs
  induction secs with
  | nil => intro isStart path loc _; rfl
  | cons sec rest ih =>
    intro isStart path loc hm
    rw [Pattern.matchRecurse]
    cases hiter : sec.matchIter posix path loc with
    | nil =>
      rw [matchableB, hiter] at hm
      simp at hm
    | cons e0 t =>
      rw [matchableB, matchableB_any_head posix sec rest path loc e0 t hiter] at hm
      exact ih false path e0 hm

theorem matchRecurse_inner_not_matchable (posix : Bool) (pat : Pattern) :
    ∀ (secs : List Sect) (path : List String) (loc : Nat),
      matchableB posix secs path loc = false →
      Pattern.matchRecurse posix pat false secs path loc = MatchType.NO_MATCH := by
  intro secs
  induction secs with
  | nil => intro path loc h; simp [matchableB] at h
  | cons sec rest ih =>
    intro path loc hm
    rw [Pattern.matchRecurse]
    cases hiter : sec.matchIter posix path loc with
    | nil => simp
    | cons e0 t =>
      rw [matchableB, matchableB_any_head posix sec rest path loc e0 t hiter] at hm
      exact ih path e0 hm

theorem matchRecurse_top_not_matchable (posix : Bool) (pat : Pattern)
    (sec : Sect) (rest : List Sect) (path : List String) (loc : Nat)
    (hm : matchableB posix (sec :: rest) path loc = false) :
    Pattern.matchRecurse posix pat true (sec :: rest) path loc = MatchType.NO_MATCH ∨
    (Pattern.matchRecurse posix pat true (sec :: rest) path loc
        = MatchType.NO_MATCH_NO_SUBDIRECTORIES ∧
      sec.matchIter posix path loc = [] ∧ pat.bound_start = true ∧
      (sec.elements.length ≤ path.length ∨
        (path.length < sec.length ∧ 0 < path.length ∧
          (sec.elements.getD (path.length - 1) default).matchStr posix
            (path.getLastD "") = false))) := by
  rw [Pattern.matchRecurse]
  cases hiter : sec.matchIter posix path loc with
  | nil =>
    by_cases hbs : pat.bound_start = true
    · simp only [hbs, Bool.and_true, Bool.true_and, if_true, ite_true]
      split_ifs with h1 h2 h3 <;>
        first
          | exact Or.inl (by trivial)
          | exact Or.inr ⟨by trivial, by trivial, by trivial, Or.inl (by omega)⟩
          | (simp only [Bool.and_eq_true, decide_eq_true_eq] at h2
             exact Or.inr ⟨by trivial, by trivial, by trivial,
               Or.inr ⟨h2.1, h2.2, by simpa using h3⟩⟩)
    · simp only [Bool.not_eq_true] at hbs
      simp only [hbs, Bool.and_false, Bool.false_eq_true, if_false, ite_false]
      exact Or.inl (by trivial)
  | cons e0 t =>
    rw [matchableB, matchableB_any_head posix sec rest path loc e0 t hiter] at hm
    exact Or.inl (matchRecurse_inner_not_matchable posix pat rest path e0 hm)


theorem Sect.matchesAt_iff (posix : Bool) (s : Sect) (path : List String) (i : Nat) :
    s.matchesAt posix path i = true ↔
      ∀ k < s.length, ((s.elements.getD k ⟨MatcherKind.constant, "", true⟩).matchStr posix
        (path.getD (i + k) "")) = true := by
  unfold Sect.matchesAt
  rw [List.all_eq_true]
  constructor
  · intro h k hk
    exact h k (List.mem_range.mpr hk)
  · intro h k hk
    exact h k (List.mem_range.mp hk)

theorem getD_append_left {p q : List String} {k : Nat} (d : String)
    (h : k < p.length) : (p ++ q).getD k d = p.getD k d := by
  rw [List.getD_eq_getElem?_getD, List.getD_eq_getElem?_getD, List.getElem?_append_left h]

theorem Sect.matchesAt_append (posix : Bool) (s : Sect) (path q : List String)
    (i : Nat) (h : i + s.length ≤ path.length) :
    s.matchesAt posix (path ++ q) i = s.matchesAt posix path i := by
  rw [Bool.eq_iff_iff, Sect.matchesAt_iff, Sect.matchesAt_iff]
  refine forall_congr' fun k => ?_
  refine imp_congr_right fun hk => ?_
  rw [getD_append_left _ (by omega)]

theorem getD_length_sub_one_eq_getLastD {p : List String} (d : String) (h : p ≠ []) :
    p.getD (p.length - 1) d = p.getLastD d := by
  rw [List.getD_eq_getElem?_getD, List.getLastD_eq_getLast?, List.getLast?_eq_getElem?]

/-- The structural invariants `Pattern.__init__` establishes on its
sections: nonempty element lists, `bound_start` only on the first
section (when the pattern is bound), `bound_end` only on the last. -/
def WFPattern (pat : Pattern) : Prop :=
  (∀ s ∈ pat.sections, s.elements ≠ []) ∧
  ∀ i, i < pat.sections.length →
    ((pat.sections.getD i default).bound_start = (pat.bound_start && i == 0)) ∧
    ((pat.sections.getD i default).bound_end
        = (pat.bound_end && i == pat.sections.length - 1))

instance (pat : Pattern) : Decidable (WFPattern pat) := by
  unfold WFPattern
  infer_instance

theorem WFPattern.sections_be_false {pat : Pattern} (h : WFPattern pat)
    (hbe : pat.bound_end = false) : ∀ s ∈ pat.sections, s.bound_end = false := by
  intro s hs
  obtain ⟨i, hi, hget⟩ := List.getElem_of_mem hs
  have h2 := (h.2 i hi).2
  rw [List.getD_eq_getElem?_getD, List.getElem?_eq_getElem hi] at h2
  simp only [Option.getD_some, hget] at h2
  rw [h2, hbe]
  simp

theorem WFPattern.head_bs {pat : Pattern} (h : WFPattern pat) {sec : Sect}
    {rest : List Sect} (hsec : pat.sections = sec :: rest) :
    sec.bound_start = pat.bound_start := by
  have h2 := (h.2 0 (by rw [hsec]; simp)).1
  rw [hsec] at h2
  simpa using h2

theorem WFPattern.head_be {pat : Pattern} (h : WFPattern pat) {sec : Sect}
    {rest : List Sect} (hsec : pat.sections = sec :: rest) :
    sec.bound_end = (pat.bound_end && (0 == rest.length)) := by
  have h2 := (h.2 0 (by rw [hsec]; simp)).2
  rw [hsec] at h2
  simp only [List.getD_cons_zero, List.length_cons, Nat.add_sub_cancel] at h2
  exact h2

theorem matchableB_append (posix : Bool) (secs : List Sect) (path q : List String) :
    ∀ (loc : Nat), (∀ s ∈ secs, s.bound_end = false) →
      matchableB posix secs path loc = true →
      matchableB posix secs (path ++ q) loc = true := by
  induction secs with
  | nil => intro loc _ _; rfl
  | cons sec rest ih =>
    intro loc hbe hm
    rw [matchableB, List.any_eq_true] at hm ⊢
    obtain ⟨e, he, hme⟩ := hm
    refine ⟨e, ?_, ih e (fun s hs => hbe s (List.mem_cons_of_mem _ hs)) hme⟩
    rw [Sect.mem_matchIter] at he ⊢
    obtain ⟨i, hi, ⟨h1, h2, h3, h4⟩, hr⟩ := he
    have hbe0 : sec.bound_end = false := hbe sec (List.mem_cons_self _ _)
    refine ⟨i, hi, ⟨h1, ?_, ?_, ?_⟩, hr⟩
    · intro hcontra; rw [hbe0] at hcontra; exact absurd hcontra (by simp)
    · simp only [List.length_append]; omega
    · rw [Sect.matchesAt_append posix sec path q i h3]; exact h4

theorem termValue_M (pat : Pattern) : termValue pat &&& MatchType.BIT_MATCH ≠ 0 := by
  unfold termValue
  split_ifs <;> decide

theorem termValue_A {pat : Pattern}
    (h : termValue pat &&& MatchType.BIT_ALL_SUBDIRECTORIES ≠ 0) :
    pat.bound_end = false := by
  unfold termValue at h
  split_ifs at h with h1 h2
  · exact absurd (by decide :
      MatchType.MATCH_BUT_NO_SUBDIRECTORIES &&& MatchType.BIT_ALL_SUBDIRECTORIES = 0) h
  · exact absurd (by decide : MatchType.MATCH &&& MatchType.BIT_ALL_SUBDIRECTORIES = 0) h
  · simpa using h2

theorem termValue_N {pat : Pattern}
    (h : termValue pat &&& MatchType.BIT_NO_SUBDIRECTORIES ≠ 0) :
    pat.sections.length = 1 ∧ pat.bound_start = true ∧ pat.bound_end = true := by
  unfold termValue at h
  split_ifs at h with h1 h2
  · simp only [Bool.and_eq_true, decide_eq_true_eq] at h1
    exact ⟨h1.1.1, h1.1.2, h1.2⟩
  · exact absurd (by decide : MatchType.MATCH &&& MatchType.BIT_NO_SUBDIRECTORIES = 0) h
  · exact absurd (by decide :
      MatchType.MATCH_ALL_SUBDIRECTORIES &&& MatchType.BIT_NO_SUBDIRECTORIES = 0) h


theorem Sect.matchIter_eq_nil (posix : Bool) (s : Sect) (path : List String)
    (st : Nat) (h : ∀ i, st ≤ i → ¬ s.validAnchor posix path i) :
    s.matchIter posix path st = [] := by
  cases hiter : s.matchIter posix path st with
  | nil => rfl
  | cons e t =>
    have hmem : e ∈ s.matchIter posix path st := by rw [hiter]; exact List.mem_cons_self e t
    rw [Sect.mem_matchIter] at hmem
    obtain ⟨i, hi, hv, _⟩ := hmem
    exact absurd hv (h i hi)

theorem match_directory_cons (posix : Bool) (pat : Pattern) (p : List String)
    {sec : Sect} {rest : List Sect} (hsec : pat.sections = sec :: rest) :
    pat.match_directory posix p
      = Pattern.matchRecurse posix pat true (sec :: rest) p 0 := by
  unfold Pattern.match_directory
  rw [if_pos (by rw [hsec]; simp), hsec]


/-- A-bit soundness: if `match_directory(p)` returns a value with the
all-subdirectories bit, every extension of `p` matches. -/
theorem matchDirectory_A_sound (posix : Bool) (pat : Pattern) (hwf : WFPattern pat)
    (p q : List String)
    (hA : pat.match_directory posix p &&& MatchType.BIT_ALL_SUBDIRECTORIES ≠ 0) :
    pat.match_directory posix (p ++ q) &&& MatchType.BIT_MATCH ≠ 0 := by
  cases hsec : pat.sections with
  | nil =>
    have hform : ∀ (P : List String), pat.match_directory posix P =
        if pat.bound_start then
          (if P.length = 0 then MatchType.MATCH_BUT_NO_SUBDIRECTORIES
           else MatchType.NO_MATCH_NO_SUBDIRECTORIES)
        else MatchType.MATCH_ALL_SUBDIRECTORIES := by
      intro P
      unfold Pattern.match_directory
      rw [if_neg (by rw [hsec]; simp)]
    rw [hform] at hA
    rw [hform]
    by_cases hbs : pat.bound_start = true
    · rw [hbs] at hA
      simp only [ite_true] at hA
      split_ifs at hA <;> exact absurd (by decide) hA
    · simp only [Bool.not_eq_true] at hbs
      rw [hbs]
      simp only [Bool.false_eq_true, ite_false]
      decide
  | cons sec0 rest0 =>
    rw [match_directory_cons posix pat p hsec] at hA
    rw [match_directory_cons posix pat (p ++ q) hsec]
    by_cases hmat : matchableB posix (sec0 :: rest0) p 0 = true
    · rw [matchRecurse_of_matchable posix pat _ true p 0 hmat] at hA
      have hbe : pat.bound_end = false := termValue_A hA
      have hbes : ∀ s ∈ pat.sections, s.bound_end = false :=
        hwf.sections_be_false hbe
      rw [hsec] at hbes
      have hm2 := matchableB_append posix (sec0 :: rest0) p q 0 hbes hmat
      rw [matchRecurse_of_matchable posix pat _ true (p ++ q) 0 hm2]
      exact termValue_M pat
    · rw [Bool.not_eq_true] at hmat
      rcases matchRecurse_top_not_matchable posix pat sec0 rest0 p 0 hmat with
        h | ⟨h, _⟩ <;> rw [h] at hA <;> exact absurd (by decide) hA

/-- N-bit soundness: if `match_directory(p)` returns a value with the
no-subdirectories bit, no proper extension of `p` matches. -/
theorem matchDirectory_N_sound (posix : Bool) (pat : Pattern) (hwf : WFPattern pat)
    (p q : List String)
    (hN : pat.match_directory posix p &&& MatchType.BIT_NO_SUBDIRECTORIES ≠ 0)
    (hq : q ≠ []) :
    pat.match_directory posix (p ++ q) &&& MatchType.BIT_MATCH = 0 := by
  cases hsec : pat.sections with
  | nil =>
    have hform : ∀ (P : List String), pat.match_directory posix P =
        if pat.bound_start then
          (if P.length = 0 then MatchType.MATCH_BUT_NO_SUBDIRECTORIES
           else MatchType.NO_MATCH_NO_SUBDIRECTORIES)
        else MatchType.MATCH_ALL_SUBDIRECTORIES := by
      intro P
      unfold Pattern.match_directory
      rw [if_neg (by rw [hsec]; simp)]
    rw [hform] at hN
    rw [hform]
    by_cases hbs : pat.bound_start = true
    · rw [hbs]
      simp only [ite_true]
      have hne : ¬ (p ++ q).length = 0 := by
        rw [List.length_append]
        have : q.length ≠ 0 := fun hz => hq (List.length_eq_zero.mp hz)
        omega
      rw [if_neg hne]
      decide
    · simp only [Bool.not_eq_true] at hbs
      rw [hbs] at hN
      simp only [Bool.false_eq_true, ite_false] at hN
      exact absurd (by decide) hN
  | cons sec0 rest0 =>
    rw [match_directory_cons posix pat p hsec] at hN
    rw [match_directory_cons posix pat (p ++ q) hsec]
    by_cases hmat : matchableB posix (sec0 :: rest0) p 0 = true
    · rw [matchRecurse_of_matchable posix pat _ true p 0 hmat] at hN
      obtain ⟨hlen1, hbs, hbe⟩ := termValue_N hN
      have hrest : rest0 = [] := by
        rw [hsec] at hlen1
        simpa using hlen1
      subst hrest
      have hbs0 : sec0.bound_start = true := by
        rw [hwf.head_bs hsec, hbs]
      have hbe0 : sec0.bound_end = true := by
        rw [hwf.head_be hsec, hbe]
        rfl
      have hspan : sec0.length = p.length := by
        rw [matchableB, List.any_eq_true] at hmat
        obtain ⟨e, he, _⟩ := hmat
        rw [Sect.mem_matchIter] at he
        obtain ⟨i, _, ⟨h1, h2, _, _⟩, _⟩ := he
        have := h1 hbs0
        have := h2 hbe0
        omega
      have hiter2 : sec0.matchIter posix (p ++ q) 0 = [] := by
        apply Sect.matchIter_eq_nil
        rintro i _ ⟨h1, h2, h3, h4⟩
        have hi0 := h1 hbs0
        have hiL := h2 hbe0
        have hqlen : q.length ≠ 0 := fun h => hq (List.length_eq_zero.mp h)
        rw [List.length_append] at hiL
        omega
      have hmat2 : matchableB posix [sec0] (p ++ q) 0 = false := by
        rw [matchableB, hiter2]
        rfl
      rcases matchRecurse_top_not_matchable posix pat sec0 [] (p ++ q) 0 hmat2 with
        h | ⟨h, _⟩ <;> rw [h] <;> decide
    · rw [Bool.not_eq_true] at hmat
      rcases matchRecurse_top_not_matchable posix pat sec0 rest0 p 0 hmat with
        h | ⟨h, hiter, hbs, hdisj⟩
      · rw [h] at hN
        exact absurd (by decide) hN
      · have hbs0 : sec0.bound_start = true := by
          rw [hwf.head_bs hsec, hbs]
        have hiter2 : sec0.matchIter posix (p ++ q) 0 = [] := by
          apply Sect.matchIter_eq_nil
          rintro i _ ⟨h1, h2, h3, h4⟩
          have hi0 := h1 hbs0
          subst hi0
          rcases hdisj with hle | ⟨hlt, hpos, hmiss⟩
          · by_cases hbe0 : sec0.bound_end = true
            · have hiL := h2 hbe0
              rw [List.length_append] at hiL
              have h5 := hwf.head_be hsec
              rw [hbe0] at h5
              have hqlen : q.length ≠ 0 := fun hz => hq (List.length_eq_zero.mp hz)
              have : sec0.length = sec0.elements.length := rfl
              omega
            · have hmAt : sec0.matchesAt posix p 0 = true := by
                rw [← Sect.matchesAt_append posix sec0 p q 0
                  (by have : sec0.length = sec0.elements.length := rfl; omega)]
                exact h4
              have : (0 + sec0.length) ∈ sec0.matchIter posix p 0 := by
                rw [Sect.mem_matchIter]
                refine ⟨0, le_refl 0, ⟨fun _ => rfl, fun hc => absurd hc hbe0, ?_, hmAt⟩, rfl⟩
                have : sec0.length = sec0.elements.length := rfl
                omega
              rw [hiter] at this
              exact absurd this (List.not_mem_nil _)
          · have helem := (Sect.matchesAt_iff posix sec0 (p ++ q) 0).mp h4
              (p.length - 1) (by have : sec0.length = sec0.elements.length := rfl; omega)
            rw [Nat.zero_add] at helem
            rw [getD_append_left _ (by omega)] at helem
            rw [getD_length_sub_one_eq_getLastD _
              (fun hnil => by rw [hnil] at hpos; simp at hpos)] at helem
            have hmiss2 : (sec0.elements.getD (p.length - 1)
                ⟨MatcherKind.constant, "", true⟩).matchStr posix (p.getLastD "") = false :=
              hmiss
            rw [helem] at hmiss2
            exact absurd hmiss2 (by simp)
        have hmat2 : matchableB posix (sec0 :: rest0) (p ++ q) 0 = false := by
          rw [matchableB, hiter2]
          rfl
        rcases matchRecurse_top_not_matchable posix pat sec0 rest0 (p ++ q) 0 hmat2 with
          h2 | ⟨h2, _⟩ <;> rw [h2] <;> decide

/-! ## Shared lemmas -/

theorem match_files_fst (posix : Bool) (pat : Pattern) (m u : Finset String) :
    (pat.match_files posix m u).1 = m ∪ u.filter (fun f => pat.fileAccepts posix f) := rfl

theorem match_files_snd (posix : Bool) (pat : Pattern) (m u : Finset String) :
    (pat.match_files posix m u).2 = u \ u.filter (fun f => pat.fileAccepts posix f) := rfl

/-- A `..` element anywhere in the input makes `_simplify`\'s loop raise
the `FormicError` (the check precedes every other branch). -/
theorem simplifyLoop_error_of_mem (posix : Bool) (all : List String) :
    ∀ (l : List String) (prev : Option String) (acc : List String),
      ".." ∈ l → ∃ msg, Pattern.simplifyLoop posix all l prev acc
        = Except.error (PyErr.formicError msg) := by
  intro l
  induction l with
  | nil => intro prev acc hmem; simp at hmem
  | cons e rest ih =>
    intro prev acc hmem
    by_cases he : e = ".."
    · subst he
      exact ⟨"Invalid glob: Cannot have \x27..\x27 in a glob: " ++ joinSlash all,
        by rw [Pattern.simplifyLoop]; simp⟩
    · have hr : ".." ∈ rest := by
        rcases List.mem_cons.mp hmem with h | h
        · exact absurd h.symm he
        · exact h
      rw [Pattern.simplifyLoop]
      split_ifs with h1 h2
      · exact ih prev acc hr
      · exact ih prev acc hr
      · exact ih (some e) (acc ++ [normcase posix e]) hr

/-- Dropping the `.` elements of the input does not change the loop
result (when no `..` aborts it): `.` elements are skipped without
touching `previous` or the accumulator. -/
theorem simplifyLoop_filter_dot (posix : Bool) (all1 all2 : List String) :
    ∀ (l : List String) (prev : Option String) (acc : List String), ".." ∉ l →
      Pattern.simplifyLoop posix all1 l prev acc
        = Pattern.simplifyLoop posix all2 (l.filter (fun e => e ≠ ".")) prev acc := by
  intro l
  induction l with
  | nil => intro prev acc _; rfl
  | cons e rest ih =>
    intro prev acc hmem
    have he : e ≠ ".." := fun h => hmem (h ▸ List.mem_cons_self e rest)
    have hr : ".." ∉ rest := fun h => hmem (List.mem_cons_of_mem e h)
    by_cases hd : e = "."
    · subst hd
      have hfil : List.filter (fun x => decide (x ≠ ".")) ("." :: rest)
          = List.filter (fun x => decide (x ≠ ".")) rest := by simp
      rw [hfil, Pattern.simplifyLoop]
      rw [if_neg he, if_pos rfl]
      exact ih prev acc hr
    · have hfil : List.filter (fun x => decide (x ≠ ".")) (e :: rest)
          = e :: List.filter (fun x => decide (x ≠ ".")) rest := by simp [hd]
      rw [hfil, Pattern.simplifyLoop, Pattern.simplifyLoop]
      split_ifs with h1 h2
      · exact absurd h1 he
      · exact ih prev acc hr
      · exact ih (some e) (acc ++ [normcase posix e]) hr

/-! ## Claims -/

/-- C3: the spec says constructing a `FileSet` with an empty include set
raises `FormicError`; in the code the guard `if not self.include:` tests
Python object truthiness of a `PatternSet` (which defines neither
`__bool__` nor `__len__`), so it is constantly false and the
construction succeeds (here with `include=[]`, no excludes, default
excludes off). -/
theorem claim_C3 :
    FileSet.init true (some []) none false true
      = Except.ok ⟨⟨[]⟩, ⟨[]⟩⟩ ∧ PatternSet.pyNot ⟨[]⟩ = false :=
  ⟨by decide, rfl⟩

/-- C7: the pattern `/test/*` compiles to a single pattern; it matches
the directory `["test"]` as `MATCH_BUT_NO_SUBDIRECTORIES` and
`["test", "sub"]` as `NO_MATCH_NO_SUBDIRECTORIES`. -/
theorem claim_C7 :
    ∃ pat : Pattern,
      Pattern.create true "/test/*" true = Except.ok (CreateResult.single pat) ∧
      pat.match_directory true ["test"] = MatchType.MATCH_BUT_NO_SUBDIRECTORIES ∧
      pat.match_directory true ["test", "sub"] = MatchType.NO_MATCH_NO_SUBDIRECTORIES :=
  ⟨Pattern.ofElements true ["test", "*"] true, by decide, by decide, by decide⟩

/-- C10: the glob `.` (all of whose components normalize away) makes
`Pattern.create` raise `IndexError` (empty-list subscript in
`_simplify`), not the engine-specific `FormicError`. -/
theorem claim_C10 :
    Pattern.create true "." true = Except.error PyErr.indexError ∧
    ∀ msg, Pattern.create true "." true ≠ Except.error (PyErr.formicError msg) := by
  refine ⟨by decide, ?_⟩
  intro msg h
  rw [show Pattern.create true "." true = Except.error PyErr.indexError from by decide] at h
  simp at h

/-- C6: a pattern with no sections: `bound_start` with an empty path
gives `MATCH_BUT_NO_SUBDIRECTORIES`, `bound_start` with a nonempty path
gives `NO_MATCH_NO_SUBDIRECTORIES`, and an unbound pattern gives
`MATCH_ALL_SUBDIRECTORIES` for every path. -/
theorem claim_C6 (posix : Bool) (pat : Pattern) (P : List String)
    (h : pat.sections = []) :
    pat.match_directory posix P =
      if pat.bound_start then
        if P = [] then MatchType.MATCH_BUT_NO_SUBDIRECTORIES
        else MatchType.NO_MATCH_NO_SUBDIRECTORIES
      else MatchType.MATCH_ALL_SUBDIRECTORIES := by
  unfold Pattern.match_directory
  rw [h]
  simp [List.length_eq_zero]

/-- C6 witness: the floating pure-file pattern `*.py` (elements
`["**", "*.py"]`) has no sections and matches `["a"]` as
`MATCH_ALL_SUBDIRECTORIES`. -/
theorem claim_C6_witness :
    (Pattern.ofElements true ["**", "*.py"] true).sections = [] ∧
    (Pattern.ofElements true ["**", "*.py"] true).match_directory true ["a"]
      = MatchType.MATCH_ALL_SUBDIRECTORIES := by
  have h := claim_C6 true (Pattern.ofElements true ["**", "*.py"] true) ["a"] (by decide)
  refine ⟨by decide, ?_⟩
  rw [h]
  decide

/-- C9: `Pattern.match_files` moves exactly the accepted members of
`unmatched` into `matched`: the new matched set is the union of the old
one with the accepted files, the two sets stay disjoint, and their
union is unchanged. -/
theorem claim_C9 (posix : Bool) (pat : Pattern) (matched unmatched : Finset String)
    (h : Disjoint matched unmatched) :
    (pat.match_files posix matched unmatched).1
        = matched ∪ unmatched.filter (fun f => pat.fileAccepts posix f) ∧
    Disjoint (pat.match_files posix matched unmatched).1
      (pat.match_files posix matched unmatched).2 ∧
    (pat.match_files posix matched unmatched).1 ∪ (pat.match_files posix matched unmatched).2
        = matched ∪ unmatched := by
  have hd := Finset.disjoint_left.mp h
  rw [match_files_fst, match_files_snd]
  refine ⟨rfl, ?_, ?_⟩
  · rw [Finset.disjoint_left]
    intro a ha hmem
    rcases Finset.mem_union.mp ha with h1 | h1
    · exact hd h1 (Finset.mem_sdiff.mp hmem).1
    · exact (Finset.mem_sdiff.mp hmem).2 h1
  · apply Finset.ext
    intro a
    simp only [Finset.mem_union, Finset.mem_sdiff, Finset.mem_filter]
    tauto

/-- C9 witness: the pattern `*.py` on `matched = `{"a"}`,
`unmatched = ` {"b.py", "c.txt"}. -/
theorem claim_C9_witness :
    Disjoint ({"a"} : Finset String) {"b.py", "c.txt"} ∧
    (((Pattern.ofElements true ["**", "*.py"] true).match_files true
        {"a"} {"b.py", "c.txt"}).1
      = {"a"} ∪ ({"b.py", "c.txt"} : Finset String).filter
          (fun f => (Pattern.ofElements true ["**", "*.py"] true).fileAccepts true f) ∧
     Disjoint ((Pattern.ofElements true ["**", "*.py"] true).match_files true
        {"a"} {"b.py", "c.txt"}).1
       ((Pattern.ofElements true ["**", "*.py"] true).match_files true
        {"a"} {"b.py", "c.txt"}).2 ∧
     ((Pattern.ofElements true ["**", "*.py"] true).match_files true
        {"a"} {"b.py", "c.txt"}).1
       ∪ ((Pattern.ofElements true ["**", "*.py"] true).match_files true
        {"a"} {"b.py", "c.txt"}).2
        = {"a"} ∪ {"b.py", "c.txt"}) :=
  ⟨by decide, claim_C9 true (Pattern.ofElements true ["**", "*.py"] true)
    {"a"} {"b.py", "c.txt"} (by decide)⟩

/-- C8: any glob whose element list contains `..` makes `Pattern.create`
raise the engine `FormicError` at compile time, while `.` elements are
silently discarded: filtering them out of the input leaves
`Pattern._simplify` unchanged. -/
theorem claim_C8 (posix : Bool) (cs : Bool) (glob : String) :
    (".." ∈ globElements glob →
      ∃ msg, Pattern.create posix glob cs = Except.error (PyErr.formicError msg)) ∧
    (".." ∉ globElements glob →
      Pattern.simplify posix (globElements glob)
        = Pattern.simplify posix ((globElements glob).filter (fun e => e ≠ "."))) := by
  constructor
  · intro hmem
    obtain ⟨msg, hmsg⟩ :=
      simplifyLoop_error_of_mem posix (globElements glob) (globElements glob) none [] hmem
    refine ⟨msg, ?_⟩
    have h1 : Pattern.simplify posix (globElements glob)
        = Except.error (PyErr.formicError msg) := by
      unfold Pattern.simplify
      rw [hmsg]
      rfl
    unfold Pattern.create
    rw [h1]
    rfl
  · intro hmem
    unfold Pattern.simplify
    rw [simplifyLoop_filter_dot posix (globElements glob)
      ((globElements glob).filter (fun e => e ≠ ".")) (globElements glob) none [] hmem]

/-- C8 witness: `a/../b` raises `FormicError`; for `a/./b` the `.` is
discarded. -/
theorem claim_C8_witness :
    (∃ msg, Pattern.create true "a/../b" true = Except.error (PyErr.formicError msg)) ∧
    Pattern.simplify true (globElements "a/./b")
      = Pattern.simplify true ((globElements "a/./b").filter (fun e => e ≠ ".")) :=
  ⟨(claim_C8 true true "a/../b").1 (by decide), (claim_C8 true true "a/./b").2 (by decide)⟩

/-- C4 counterexample: the glob `a/**/` ends in `/` and has a concrete
section `a`, so the claim predicts a two-member set one of whose members
has the terminal section promoted to the file name (file pattern `a`);
the code normalizes it to `["**", "a", "**", "**"]` and both produced
patterns keep a trailing `**`, with file pattern `*`. -/
theorem claim_C4_counterexample :
    Pattern.simplify true (globElements "a/**/") = Except.ok ["**", "a", "**", "**"] ∧
    Pattern.create true "a/**/" true = Except.ok (CreateResult.pset
      [Pattern.ofElements true ["**", "a", "**", "**"] true,
       Pattern.ofElements true ["**", "a", "**"] true]) ∧
    (Pattern.ofElements true ["**", "a", "**", "**"] true).file_pattern = "*" ∧
    (Pattern.ofElements true ["**", "a", "**"] true).file_pattern = "*" :=
  ⟨by decide, by decide, by decide, by decide⟩

/-- C4 (amended): when the normalized element list ends in `**` and the
element *before* that terminal `**` is concrete (not itself `**`),
`Pattern.create` returns a `PatternSet` of exactly two members: the
first keeps the trailing `**` (file pattern `*`, matching the
directory\'s contents) and the second promotes that terminal element to
the file pattern.  (For globs whose normalization ends in two `**`, such
as `a/**/`, both members keep a trailing `**`.) -/
theorem claim_C4 (posix cs : Bool) (glob : String) (elements : List String)
    (h : Pattern.simplify posix (globElements glob) = Except.ok elements)
    (h1 : elements.length > 1) (h2 : elements.getLastD "" = "**")
    (h3 : elements.dropLast.getLastD "" ≠ "**") :
    Pattern.create posix glob cs = Except.ok (CreateResult.pset
      [Pattern.ofElements posix elements (determine_casesensitive posix cs),
       Pattern.ofElements posix elements.dropLast (determine_casesensitive posix cs)]) ∧
    (Pattern.ofElements posix elements (determine_casesensitive posix cs)).file_pattern
      = "*" ∧
    (Pattern.ofElements posix elements.dropLast
        (determine_casesensitive posix cs)).file_pattern
      = normcase posix (elements.dropLast.getLastD "") := by
  rw [List.getLastD_eq_getLast?] at h2 h3
  refine ⟨?_, ?_, ?_⟩
  · unfold Pattern.create
    rw [h]
    show (if elements.length > 1 && elements.getLastD "" = "**" then _ else _) = _
    rw [List.getLastD_eq_getLast?, h2]
    simp [h1]
  · unfold Pattern.ofElements
    rw [List.getLastD_eq_getLast?, h2]
    simp
  · unfold Pattern.ofElements
    rw [List.getLastD_eq_getLast?]
    simp [h3]

/-- C4 witness: `test/` normalizes to `["**", "test", "**"]`; the two
members are the contents pattern (file `*`) and the promoted pattern
(file `test`). -/
theorem claim_C4_witness :
    Pattern.simplify true (globElements "test/") = Except.ok ["**", "test", "**"] ∧
    (Pattern.create true "test/" true = Except.ok (CreateResult.pset
      [Pattern.ofElements true ["**", "test", "**"] (determine_casesensitive true true),
       Pattern.ofElements true (["**", "test", "**"].dropLast)
         (determine_casesensitive true true)]) ∧
     (Pattern.ofElements true ["**", "test", "**"]
        (determine_casesensitive true true)).file_pattern = "*" ∧
     (Pattern.ofElements true (["**", "test", "**"].dropLast)
        (determine_casesensitive true true)).file_pattern
       = normcase true ((["**", "test", "**"] : List String).dropLast.getLastD "")) :=
  ⟨by decide, claim_C4 true true "test/" ["**", "test", "**"]
    (by decide) (by decide) (by decide) (by decide)⟩

/-- C5 counterexample: compiling under the case-insensitive policy on
POSIX (`Matcher.create` with `casesensitive=False`) stores the pattern
`A*` unchanged — `os.path.normcase` is the identity on POSIX, so nothing
is lowercased at compile time — and the match functions do consult the
case-sensitivity flag at match time: two matchers identical except for
the flag disagree on the input `a`. -/
theorem claim_C5_counterexample :
    (Matcher.create true "A*" false).pattern = "A*" ∧
    (Matcher.create true "A*" false).pattern ≠ strLower "A*" ∧
    Matcher.matchStr true ⟨MatcherKind.constant, "A", true⟩ "a" = false ∧
    Matcher.matchStr true ⟨MatcherKind.constant, "A", false⟩ "a" = true :=
  ⟨by decide, by decide, by decide, by decide⟩

/-- C5 (amended): on the NT platform the stored pattern is
`normcase(pattern)` (which lowercases); on POSIX it is stored unchanged
for every requested policy; and when the stored flag is
case-insensitive the match functions resolve case at match time by
lowercasing both operands. -/
theorem claim_C5 (posix cs : Bool) (p s : String) :
    (Matcher.create false p cs).pattern = normcase false p ∧
    (Matcher.create true p cs).pattern = p ∧
    Matcher.matchStr posix ⟨MatcherKind.fnm, p, false⟩ s
      = fnmatch posix (strLower s) (strLower p) ∧
    Matcher.matchStr posix ⟨MatcherKind.constant, p, false⟩ s
      = decide (strLower p = strLower (normcase posix s)) := by
  refine ⟨?_, ?_, rfl, rfl⟩
  · unfold Matcher.create
    split_ifs <;> rfl
  · unfold Matcher.create
    split_ifs <;> simp [normcase]

/-- C2: MatchType soundness.  If `match_directory(p)` has the A
(all-subdirectories) bit, every extension `p ++ q` has the M bit; if it
has the N (no-subdirectories) bit, no proper extension has the M bit. -/
theorem claim_C2 (posix : Bool) (pat : Pattern) (hwf : WFPattern pat)
    (p q : List String) :
    ((pat.match_directory posix p &&& MatchType.BIT_ALL_SUBDIRECTORIES ≠ 0) →
      pat.match_directory posix (p ++ q) &&& MatchType.BIT_MATCH ≠ 0) ∧
    ((pat.match_directory posix p &&& MatchType.BIT_NO_SUBDIRECTORIES ≠ 0) → q ≠ [] →
      pat.match_directory posix (p ++ q) &&& MatchType.BIT_MATCH = 0) :=
  ⟨matchDirectory_A_sound posix pat hwf p q, matchDirectory_N_sound posix pat hwf p q⟩

/-- C2 witness: the pattern with elements `["**", "a", "**"]`
(glob `a/`) matches `["a"]` with the A bit, hence `["a", "x"]` with the
M bit. -/
theorem claim_C2_witness :
    WFPattern (Pattern.ofElements true ["**", "a", "**"] true) ∧
    ((Pattern.ofElements true ["**", "a", "**"] true).match_directory true ["a"]
        &&& MatchType.BIT_ALL_SUBDIRECTORIES ≠ 0) ∧
    (Pattern.ofElements true ["**", "a", "**"] true).match_directory true (["a"] ++ ["x"])
        &&& MatchType.BIT_MATCH ≠ 0 := by
  refine ⟨by decide, by decide, ?_⟩
  exact (claim_C2 true (Pattern.ofElements true ["**", "a", "**"] true) (by decide)
    ["a"] ["x"]).1 (by decide)

/-! ## Ideal characterization of the traversal state

The walker threads a `FileSetState` chain through the directories in
depth-first order.  We characterize each bag of each frame by a closed
predicate of the directory path alone, and then prove that the pruned
traversal emits exactly the brute-force pair set. -/

/-- A pattern stays in the live pool when the walk steps out of
directory `pr`: it was put in `matched_and_subdir` or `unmatched`. -/
def survives (posix : Bool) (p : Pattern) (pr : List String) : Bool :=
  FileSetState.andSubCond posix pr p || FileSetState.unmatchedCond posix pr p

/-- `survivesAll posix p done todo`: walking from `done` through the
successive components of `todo`, the pattern survives every
intermediate directory (excluding the final one). -/
def survivesAll (posix : Bool) (p : Pattern) : List String → List String → Bool
  | _, [] => true
  | done, c :: todo => survives posix p done && survivesAll posix p (done ++ [c]) todo

/-- The pattern is still in the pool when the walk enters `pe`. -/
def arrives (posix : Bool) (p : Pattern) (pe : List String) : Bool :=
  survivesAll posix p [] pe

/-- Some seed pattern reaches `pr` and lands in its inherit bag. -/
def hasInherit (posix : Bool) (seed : List Pattern) (pr : List String) : Bool :=
  seed.any (fun p => arrives posix p pr && FileSetState.inheritCond posix pr p)

def anyStrictPrefixInherit (posix : Bool) (seed : List Pattern) :
    List String → List String → Bool
  | _, [] => false
  | done, c :: todo =>
    hasInherit posix seed done || anyStrictPrefixInherit posix seed (done ++ [c]) todo

/-- The ideal value of `parent_has_patterns` at `pe`: some strict
prefix of `pe` put a seed pattern into its inherit bag. -/
def phpIdeal (posix : Bool) (seed : List Pattern) (pe : List String) : Bool :=
  anyStrictPrefixInherit posix seed [] pe

/-- What a traversal-state frame holds at its directory. -/
def FrameOK (posix : Bool) (seed : List Pattern) (f : StateFrame) : Prop :=
  f.parent_has_patterns = phpIdeal posix seed f.path_elements ∧
  (∀ p, p ∈ f.matched_inherit ↔ p ∈ seed ∧ arrives posix p f.path_elements = true ∧
      FileSetState.inheritCond posix f.path_elements p = true) ∧
  (∀ p, p ∈ f.matched_and_subdir ↔ p ∈ seed ∧ arrives posix p f.path_elements = true ∧
      FileSetState.andSubCond posix f.path_elements p = true) ∧
  (∀ p, p ∈ f.matched_no_subdir ↔ p ∈ seed ∧ arrives posix p f.path_elements = true ∧
      FileSetState.noSubCond posix f.path_elements p = true) ∧
  (∀ p, p ∈ f.unmatched ↔ p ∈ seed ∧ arrives posix p f.path_elements = true ∧
      FileSetState.unmatchedCond posix f.path_elements p = true)

/-- The chain invariant: a frame for `pe`, then frames for each proper
prefix of `pe` down to the root. -/
def ChainOK (posix : Bool) (seed : List Pattern) : FileSetState → List String → Prop
  | [], _ => False
  | f :: rest, pe =>
    f.path_elements = pe ∧ FrameOK posix seed f ∧
      (if pe = [] then rest = [] else ChainOK posix seed rest pe.dropLast)

/-- The precondition on a previous-state argument of `_receive` when the
walk enters `pe`: either the root call, or a chain for a previously
visited directory that is not inside `pe` but is inside `pe`'s parent. -/
def PrevOK (posix : Bool) (seed : List Pattern) (prevOpt : Option FileSetState)
    (pe : List String) : Prop :=
  match prevOpt with
  | none => pe = []
  | some prev => pe ≠ [] ∧ ∃ prevPe, ChainOK posix seed prev prevPe ∧
      pe.dropLast <+: prevPe ∧ ¬ pe <+: prevPe

/- Well-formed walker tree: sibling directory names are distinct. -/
mutual
def WFTreeB : FTree → Bool
  | FTree.node dirs _ => decide ((dirs.map Prod.fst).Nodup) && WFTreeListB dirs

def WFTreeListB : List (String × FTree) → Bool
  | [] => true
  | (_, t) :: rest => WFTreeB t && WFTreeListB rest
end
theorem survivesAll_append (posix : Bool) (p : Pattern) :
    ∀ (q1 done q2 : List String),
    survivesAll posix p done (q1 ++ q2)
      = (survivesAll posix p done q1 && survivesAll posix p (done ++ q1) q2)
  | [], done, q2 => by simp [survivesAll]
  | c :: q1, done, q2 => by
    simp [survivesAll, survivesAll_append posix p q1 (done ++ [c]) q2,
      Bool.and_assoc, List.append_assoc]

theorem arrives_append (posix : Bool) (p : Pattern) (pe q : List String) :
    arrives posix p (pe ++ q) = (arrives posix p pe && survivesAll posix p pe q) := by
  have h := survivesAll_append posix p pe [] q
  simpa [arrives] using h

theorem arrives_of_arrives_append (posix : Bool) (p : Pattern) (pe q : List String)
    (h : arrives posix p (pe ++ q) = true) : arrives posix p pe = true := by
  rw [arrives_append] at h
  exact (Bool.and_eq_true_iff.mp h).1

theorem survives_of_arrives_append (posix : Bool) (p : Pattern) (pe : List String)
    {q : List String} (hq : q ≠ []) (h : arrives posix p (pe ++ q) = true) :
    survives posix p pe = true := by
  rw [arrives_append] at h
  have h2 := (Bool.and_eq_true_iff.mp h).2
  cases q with
  | nil => exact absurd rfl hq
  | cons c q2 =>
    rw [survivesAll] at h2
    exact (Bool.and_eq_true_iff.mp h2).1

theorem survivesAll_false_split (posix : Bool) (p : Pattern) :
    ∀ (todo done : List String), survivesAll posix p done todo = false →
    ∃ q1 c q2, todo = q1 ++ c :: q2 ∧ survivesAll posix p done q1 = true ∧
      survives posix p (done ++ q1) = false
  | [], done, h => by rw [survivesAll] at h; exact absurd h (by decide)
  | c :: todo, done, h => by
    rw [survivesAll] at h
    cases hsv : survives posix p done with
    | false => exact ⟨[], c, todo, rfl, rfl, by simpa using hsv⟩
    | true =>
      rw [hsv, Bool.true_and] at h
      obtain ⟨q1, c1, q2, he, hs, hf⟩ := survivesAll_false_split posix p todo (done ++ [c]) h
      refine ⟨c :: q1, c1, q2, by rw [he]; rfl, ?_, ?_⟩
      · rw [survivesAll, hsv, Bool.true_and]
        exact hs
      · simpa [List.append_assoc] using hf

theorem anyStrictPrefixInherit_iff (posix : Bool) (seed : List Pattern) :
    ∀ (todo done : List String),
    anyStrictPrefixInherit posix seed done todo = true ↔
      ∃ q1 c q2, todo = q1 ++ c :: q2 ∧ hasInherit posix seed (done ++ q1) = true
  | [], done => by
    rw [anyStrictPrefixInherit]
    constructor
    · intro h; exact absurd h (by decide)
    · rintro ⟨q1, c, q2, he, -⟩
      exact absurd he (by simp)
  | c :: todo, done => by
    rw [anyStrictPrefixInherit, Bool.or_eq_true_iff,
      anyStrictPrefixInherit_iff posix seed todo (done ++ [c])]
    constructor
    · rintro (h | ⟨q1, c1, q2, he, hh⟩)
      · exact ⟨[], c, todo, rfl, by simpa using h⟩
      · exact ⟨c :: q1, c1, q2, by rw [he]; rfl, by simpa [List.append_assoc] using hh⟩
    · rintro ⟨q1, c1, q2, he, hh⟩
      cases q1 with
      | nil =>
        simp only [List.nil_append, List.cons.injEq] at he
        exact Or.inl (by simpa using hh)
      | cons c0 q1 =>
        simp only [List.cons_append, List.cons.injEq] at he
        obtain ⟨rfl, rfl⟩ := he
        exact Or.inr ⟨q1, c1, q2, rfl, by simpa [List.append_assoc] using hh⟩
theorem anyStrictPrefixInherit_append (posix : Bool) (seed : List Pattern) :
    ∀ (q1 done q2 : List String),
    anyStrictPrefixInherit posix seed done (q1 ++ q2)
      = (anyStrictPrefixInherit posix seed done q1
          || anyStrictPrefixInherit posix seed (done ++ q1) q2)
  | [], done, q2 => by simp [anyStrictPrefixInherit]
  | c :: q1, done, q2 => by
    simp [anyStrictPrefixInherit,
      anyStrictPrefixInherit_append posix seed q1 (done ++ [c]) q2,
      Bool.or_assoc, List.append_assoc]

theorem phpIdeal_snoc (posix : Bool) (seed : List Pattern) (pe : List String) (x : String) :
    phpIdeal posix seed (pe ++ [x])
      = (phpIdeal posix seed pe || hasInherit posix seed pe) := by
  have h := anyStrictPrefixInherit_append posix seed pe [] [x]
  simpa [phpIdeal, anyStrictPrefixInherit] using h

theorem isPrefix_ne_iff {pr pe : List String} :
    (pr <+: pe ∧ pr ≠ pe) ↔ ∃ c q2, pe = pr ++ c :: q2 := by
  constructor
  · rintro ⟨⟨t, rfl⟩, hne⟩
    cases t with
    | nil => exact absurd (by simp) hne
    | cons c q2 => exact ⟨c, q2, rfl⟩
  · rintro ⟨c, q2, rfl⟩
    refine ⟨⟨c :: q2, rfl⟩, ?_⟩
    intro h
    have := congrArg List.length h
    simp at this

theorem phpIdeal_true_iff (posix : Bool) (seed : List Pattern) (pe : List String) :
    phpIdeal posix seed pe = true ↔
      ∃ pr, pr <+: pe ∧ pr ≠ pe ∧ hasInherit posix seed pr = true := by
  rw [phpIdeal, anyStrictPrefixInherit_iff]
  constructor
  · rintro ⟨q1, c, q2, rfl, hh⟩
    exact ⟨q1, (isPrefix_ne_iff.mpr ⟨c, q2, by simp⟩).1,
      (isPrefix_ne_iff.mpr ⟨c, q2, by simp⟩).2, by simpa using hh⟩
  · rintro ⟨pr, hpre, hne, hh⟩
    obtain ⟨c, q2, rfl⟩ := isPrefix_ne_iff.mp ⟨hpre, hne⟩
    exact ⟨pr, c, q2, rfl, by simpa using hh⟩

theorem not_survives_not_inherit_N (posix : Bool) (p : Pattern) (pr : List String)
    (hs : survives posix p pr = false)
    (hi : FileSetState.inheritCond posix pr p = false) :
    p.match_directory posix pr &&& MatchType.BIT_NO_SUBDIRECTORIES ≠ 0 := by
  intro h4
  by_cases h1 : p.match_directory posix pr &&& MatchType.BIT_MATCH = 0
  · rw [survives, Bool.or_eq_false_iff] at hs
    simp [FileSetState.unmatchedCond, h1, h4] at hs
  · by_cases h2 : p.match_directory posix pr &&& MatchType.BIT_ALL_SUBDIRECTORIES = 0
    · rw [survives, Bool.or_eq_false_iff] at hs
      simp [FileSetState.andSubCond, h1, h2, h4] at hs
    · simp [FileSetState.inheritCond, h1, h2] at hi

theorem inheritCond_M (posix : Bool) (p : Pattern) (pr : List String)
    (h : FileSetState.inheritCond posix pr p = true) :
    p.match_directory posix pr &&& MatchType.BIT_MATCH ≠ 0 := by
  rw [FileSetState.inheritCond] at h
  simp only [Bool.and_eq_true_iff, bne_iff_ne, ne_eq] at h
  exact h.1

theorem inheritCond_A (posix : Bool) (p : Pattern) (pr : List String)
    (h : FileSetState.inheritCond posix pr p = true) :
    p.match_directory posix pr &&& MatchType.BIT_ALL_SUBDIRECTORIES ≠ 0 := by
  rw [FileSetState.inheritCond] at h
  simp only [Bool.and_eq_true_iff, bne_iff_ne, ne_eq] at h
  exact h.2

theorem andSubCond_M (posix : Bool) (p : Pattern) (pr : List String)
    (h : FileSetState.andSubCond posix pr p = true) :
    p.match_directory posix pr &&& MatchType.BIT_MATCH ≠ 0 := by
  rw [FileSetState.andSubCond] at h
  simp only [Bool.and_eq_true_iff, bne_iff_ne, ne_eq] at h
  exact h.1.1

theorem noSubCond_M (posix : Bool) (p : Pattern) (pr : List String)
    (h : FileSetState.noSubCond posix pr p = true) :
    p.match_directory posix pr &&& MatchType.BIT_MATCH ≠ 0 := by
  rw [FileSetState.noSubCond] at h
  simp only [Bool.and_eq_true_iff, bne_iff_ne, ne_eq] at h
  exact h.1.1

theorem M_not_inherit_cases (posix : Bool) (p : Pattern) (pr : List String)
    (hM : p.match_directory posix pr &&& MatchType.BIT_MATCH ≠ 0)
    (hi : FileSetState.inheritCond posix pr p = false) :
    FileSetState.andSubCond posix pr p = true
      ∨ FileSetState.noSubCond posix pr p = true := by
  by_cases h2 : p.match_directory posix pr &&& MatchType.BIT_ALL_SUBDIRECTORIES = 0
  · by_cases h4 : p.match_directory posix pr &&& MatchType.BIT_NO_SUBDIRECTORIES = 0
    · exact Or.inl (by simp [FileSetState.andSubCond, hM, h2, h4])
    · exact Or.inr (by simp [FileSetState.noSubCond, hM, h2, h4])
  · simp [FileSetState.inheritCond, hM, h2] at hi

/-- If a pattern has the `MATCH` bit at `d`, then some prefix of `d` is
reached live and either equals `d` or raises the inherit condition
there. -/
theorem M_reach (posix : Bool) (p : Pattern) (hwf : WFPattern p) (d : List String)
    (hM : p.match_directory posix d &&& MatchType.BIT_MATCH ≠ 0) :
    ∃ pr, pr <+: d ∧ arrives posix p pr = true ∧
      (pr = d ∨ FileSetState.inheritCond posix pr p = true) := by
  cases h : arrives posix p d with
  | true => exact ⟨d, List.prefix_rfl, h, Or.inl rfl⟩
  | false =>
    obtain ⟨q1, c, q2, he, hs, hf⟩ := survivesAll_false_split posix p d [] h
    simp only [List.nil_append] at he hs hf
    by_cases hi : FileSetState.inheritCond posix q1 p = true
    · exact ⟨q1, by rw [he]; exact ⟨c :: q2, rfl⟩, hs, Or.inr hi⟩
    · exfalso
      have hN := not_survives_not_inherit_N posix p q1 hf (Bool.not_eq_true _ ▸ hi)
      have := matchDirectory_N_sound posix p hwf q1 (c :: q2) hN (by simp)
      rw [← he] at this
      exact hM this
theorem ChainOK_ne_nil (posix : Bool) (seed : List Pattern) :
    ∀ (s : FileSetState) (pe : List String), ChainOK posix seed s pe → s ≠ []
  | [], _, h => by rw [ChainOK] at h; exact h.elim
  | _ :: _, _, _ => by simp

theorem prefix_dropLast_of_proper {α : Type} {l₁ l₂ : List α} (h : l₁ <+: l₂)
    (hne : l₁ ≠ l₂) : l₁ <+: l₂.dropLast := by
  obtain ⟨t, rfl⟩ := h
  cases t with
  | nil => exact absurd (by simp) hne
  | cons c q =>
    rw [List.dropLast_append_cons]
    exact List.prefix_append _ _

theorem bag_nonempty_iff {l : List Pattern} {P : Pattern → Prop}
    (h : ∀ p, p ∈ l ↔ P p) : ((!l.isEmpty) = true ↔ ∃ p, P p) := by
  cases l with
  | nil =>
    simp only [List.isEmpty_nil, Bool.not_true]
    constructor
    · intro hf; exact absurd hf (by decide)
    · rintro ⟨p, hp⟩; exact absurd ((h p).mpr hp) (List.not_mem_nil p)
  | cons a l =>
    simp only [List.isEmpty_cons, Bool.not_false]
    exact ⟨fun _ => ⟨a, (h a).mp (List.mem_cons_self a l)⟩, fun _ => trivial⟩

theorem hasInherit_iff (posix : Bool) (seed : List Pattern) (pr : List String) :
    hasInherit posix seed pr = true ↔
      ∃ p, p ∈ seed ∧ arrives posix p pr = true
        ∧ FileSetState.inheritCond posix pr p = true := by
  rw [hasInherit, List.any_eq_true]
  exact exists_congr fun p => by
    rw [Bool.and_eq_true_iff]

/-- `_find_parent` preserves the chain invariant: climbing from the
chain of a previously visited directory `prevPe` with the new directory
`par ++ [name]` lands on the chain of `par`. -/
theorem findParent_ok (posix : Bool) (seed : List Pattern) :
    ∀ (s : FileSetState) (prevPe par : List String) (name : String),
    ChainOK posix seed s prevPe → par <+: prevPe →
    ¬ ((par ++ [name]) <+: prevPe) →
    ChainOK posix seed (FileSetState.findParent s (par ++ [name])) par
  | [], _, _, _, hch, _, _ => by rw [ChainOK] at hch; exact hch.elim
  | f :: rest, prevPe, par, name, hch, hpre, hnot => by
    rw [ChainOK] at hch
    obtain ⟨hpath, hfok, hrest⟩ := hch
    rw [FileSetState.findParent]
    by_cases hroot : f.path_elements = []
    · rw [if_pos hroot]
      rw [hpath] at hroot
      subst hroot
      have hpar : par = [] := List.prefix_nil.mp hpre
      subst hpar
      rw [ChainOK]
      exact ⟨hpath, hfok, hrest⟩
    · rw [if_neg hroot]
      have hpne : prevPe ≠ [] := by rw [hpath] at hroot; exact hroot
      by_cases htake : f.path_elements = (par ++ [name]).take f.path_elements.length
      · rw [if_pos htake]
        have hpp : prevPe <+: par ++ [name] := by
          rw [List.prefix_iff_eq_take]
          rw [hpath] at htake
          exact htake
        have hpar : prevPe = par := by
          rcases Nat.lt_or_ge prevPe.length (par.length + 1) with hl | hl
          · exact (hpre.eq_of_length_le (by omega)).symm
          · have heq : prevPe = par ++ [name] :=
              hpp.eq_of_length_le (by simpa using hl)
            have h2 : (par ++ [name]) <+: prevPe := by
              rw [heq]
            exact absurd h2 hnot
        subst hpar
        rw [ChainOK]
        exact ⟨hpath, hfok, hrest⟩
      · rw [if_neg htake]
        have hne : par ≠ prevPe := by
          rintro rfl
          apply htake
          rw [hpath, List.take_left' rfl]
        rw [if_neg hpne] at hrest
        exact findParent_ok posix seed rest prevPe.dropLast par name hrest
          (prefix_dropLast_of_proper hpre hne)
          (fun hc => hnot (hc.trans ( List.dropLast_prefix prevPe)))
theorem arrives_snoc (posix : Bool) (p : Pattern) (par : List String) (name : String) :
    arrives posix p (par ++ [name])
      = (arrives posix p par && survives posix p par) := by
  rw [arrives_append]
  simp [survivesAll]

theorem create_none_eq (posix : Bool) (pe : List String) (seed2 : List Pattern) :
    FileSetState.create posix pe none seed2 =
      [{ path_elements := pe
         parent_has_patterns := false
         matched_inherit := FileSetState.classifyInherit posix pe seed2
         matched_and_subdir := FileSetState.classifyAndSubdir posix pe seed2
         matched_no_subdir := FileSetState.classifyNoSubdir posix pe seed2
         unmatched := FileSetState.classifyUnmatched posix pe seed2 }] := rfl

theorem create_some_eq (posix : Bool) (pe : List String) (prev : FileSetState)
    (seed2 : List Pattern) {pf : StateFrame} {prest : List StateFrame}
    (hfp : FileSetState.findParent prev pe = pf :: prest) :
    FileSetState.create posix pe (some prev) seed2 =
      { path_elements := pe
        parent_has_patterns := pf.parent_has_patterns || !(pf.matched_inherit.isEmpty)
        matched_inherit := FileSetState.classifyInherit posix pe
          (pf.matched_and_subdir ++ pf.unmatched)
        matched_and_subdir := FileSetState.classifyAndSubdir posix pe
          (pf.matched_and_subdir ++ pf.unmatched)
        matched_no_subdir := FileSetState.classifyNoSubdir posix pe
          (pf.matched_and_subdir ++ pf.unmatched)
        unmatched := FileSetState.classifyUnmatched posix pe
          (pf.matched_and_subdir ++ pf.unmatched) : StateFrame } :: (pf :: prest) := by
  unfold FileSetState.create
  simp only [hfp]

theorem FrameOK_build (posix : Bool) (seed : List Pattern) (pe : List String)
    (pool : List Pattern) (php : Bool)
    (hpool : ∀ p, p ∈ pool ↔ p ∈ seed ∧ arrives posix p pe = true)
    (hphp : php = phpIdeal posix seed pe) :
    FrameOK posix seed
      { path_elements := pe
        parent_has_patterns := php
        matched_inherit := FileSetState.classifyInherit posix pe pool
        matched_and_subdir := FileSetState.classifyAndSubdir posix pe pool
        matched_no_subdir := FileSetState.classifyNoSubdir posix pe pool
        unmatched := FileSetState.classifyUnmatched posix pe pool } := by
  unfold FrameOK
  refine ⟨hphp, ?_, ?_, ?_, ?_⟩ <;> intro p
  · rw [FileSetState.classifyInherit, List.mem_filter, hpool p, and_assoc]
  · rw [FileSetState.classifyAndSubdir, List.mem_filter, hpool p, and_assoc]
  · rw [FileSetState.classifyNoSubdir, List.mem_filter, hpool p, and_assoc]
  · rw [FileSetState.classifyUnmatched, List.mem_filter, hpool p, and_assoc]

/-- The root state created at the start of the walk satisfies the chain
invariant for the empty path. -/
theorem create_root_ok (posix : Bool) (seed : List Pattern) :
    ChainOK posix seed (FileSetState.create posix [] none seed) [] := by
  rw [create_none_eq, ChainOK]
  refine ⟨rfl, ?_, by simp⟩
  exact FrameOK_build posix seed [] seed false
    (fun p => by rw [arrives]; simp [survivesAll]) rfl

/-- Creating the state for directory `par ++ [name]` based on the state
of any previously visited directory outside it preserves the chain
invariant. -/
theorem create_child_ok (posix : Bool) (seed : List Pattern) (prev : FileSetState)
    (prevPe par : List String) (name : String) (seed2 : List Pattern)
    (hch : ChainOK posix seed prev prevPe) (hpre : par <+: prevPe)
    (hnot : ¬ ((par ++ [name]) <+: prevPe)) :
    ChainOK posix seed (FileSetState.create posix (par ++ [name]) (some prev) seed2)
      (par ++ [name]) := by
  have hpar := findParent_ok posix seed prev prevPe par name hch hpre hnot
  obtain ⟨pf, prest, hfp⟩ := List.exists_cons_of_ne_nil (ChainOK_ne_nil posix seed _ par hpar)
  rw [hfp] at hpar
  have hpar2 := hpar
  rw [ChainOK] at hpar2
  obtain ⟨hppath, hpfok, -⟩ := hpar2
  obtain ⟨hphp, hinh, hand, hnos, hunm⟩ := hpfok
  rw [create_some_eq posix (par ++ [name]) prev seed2 hfp, ChainOK]
  refine ⟨rfl, ?_, ?_⟩
  · apply FrameOK_build
    · intro p
      rw [List.mem_append, hand p, hunm p, hppath, arrives_snoc]
      constructor
      · rintro (⟨hs, ha, hc⟩ | ⟨hs, ha, hc⟩)
        · exact ⟨hs, by rw [ha, Bool.true_and, survives, hc, Bool.true_or]⟩
        · exact ⟨hs, by rw [ha, Bool.true_and, survives, hc, Bool.or_true]⟩
      · rintro ⟨hs, ha⟩
        rw [Bool.and_eq_true_iff] at ha
        obtain ⟨ha1, ha2⟩ := ha
        rw [survives, Bool.or_eq_true_iff] at ha2
        rcases ha2 with h | h
        · exact Or.inl ⟨hs, ha1, h⟩
        · exact Or.inr ⟨hs, ha1, h⟩
    · rw [phpIdeal_snoc, hphp, hppath]
      congr 1
      rw [Bool.eq_iff_iff,
        bag_nonempty_iff (fun p => by rw [hinh p, hppath]),
        hasInherit_iff]
  · rw [if_neg (by simp : ¬(par ++ [name] = ([] : List String))), List.dropLast_concat]
    exact hpar
theorem phpIdeal_nil (posix : Bool) (seed : List Pattern) :
    phpIdeal posix seed [] = false := rfl

/-- What `_matching_pattern_sets` collects while climbing
`matched_inherit` bags: the patterns that reached some prefix of the
current directory live and anchored there with `ALL_SUBDIRECTORIES`. -/
theorem mem_climbInherit (posix : Bool) (seed : List Pattern) :
    ∀ (s : FileSetState) (pe : List String), ChainOK posix seed s pe →
    ∀ p, (p ∈ FileSetState.climbInherit s ↔
      ∃ pr, pr <+: pe ∧ p ∈ seed ∧ arrives posix p pr = true ∧
        FileSetState.inheritCond posix pr p = true)
  | [], _, hch => by rw [ChainOK] at hch; exact hch.elim
  | f :: rest, pe, hch => by
    intro p
    rw [ChainOK] at hch
    obtain ⟨hpath, hfok, hrest⟩ := hch
    obtain ⟨hphp, hinh, -, -, -⟩ := hfok
    rw [hpath] at hphp hinh
    rw [FileSetState.climbInherit, List.mem_append]
    by_cases hpe : pe = []
    · subst hpe
      rw [phpIdeal_nil] at hphp
      rw [hphp]
      simp only [Bool.false_eq_true, if_false, List.not_mem_nil, or_false]
      rw [hinh p]
      constructor
      · rintro ⟨hs, ha, hc⟩; exact ⟨[], List.prefix_rfl, hs, ha, hc⟩
      · rintro ⟨pr, hpre, hs, ha, hc⟩
        have : pr = [] := List.prefix_nil.mp hpre
        subst this
        exact ⟨hs, ha, hc⟩
    · rw [if_neg hpe] at hrest
      have hih := mem_climbInherit posix seed rest pe.dropLast hrest p
      rw [hphp]
      cases hpp : phpIdeal posix seed pe with
      | true =>
        simp only [if_true]
        rw [hinh p, hih]
        constructor
        · rintro (⟨hs, ha, hc⟩ | ⟨pr, hpre, hs, ha, hc⟩)
          · exact ⟨pe, List.prefix_rfl, hs, ha, hc⟩
          · exact ⟨pr, hpre.trans ( List.dropLast_prefix pe), hs, ha, hc⟩
        · rintro ⟨pr, hpre, hs, ha, hc⟩
          by_cases hne : pr = pe
          · subst hne; exact Or.inl ⟨hs, ha, hc⟩
          · exact Or.inr ⟨pr, prefix_dropLast_of_proper hpre hne, hs, ha, hc⟩
      | false =>
        simp only [Bool.false_eq_true, if_false, List.not_mem_nil, or_false]
        rw [hinh p]
        constructor
        · rintro ⟨hs, ha, hc⟩; exact ⟨pe, List.prefix_rfl, hs, ha, hc⟩
        · rintro ⟨pr, hpre, hs, ha, hc⟩
          by_cases hne : pr = pe
          · subst hne; exact ⟨hs, ha, hc⟩
          · exfalso
            have : phpIdeal posix seed pe = true :=
              (phpIdeal_true_iff posix seed pe).mpr
                ⟨pr, hpre, hne, (hasInherit_iff posix seed pr).mpr ⟨p, hs, ha, hc⟩⟩
            rw [hpp] at this
            exact absurd this (by decide)

/-- `_matching_pattern_sets` collects exactly the seed patterns whose
`match_directory` at the current directory has the `MATCH` bit. -/
theorem mem_matchingPatterns (posix : Bool) (seed : List Pattern)
    (hwf : ∀ p ∈ seed, WFPattern p) (s : FileSetState) (pe : List String)
    (hch : ChainOK posix seed s pe) (p : Pattern) :
    p ∈ FileSetState.matchingPatterns s ↔
      p ∈ seed ∧ p.match_directory posix pe &&& MatchType.BIT_MATCH ≠ 0 := by
  obtain ⟨f, rest, rfl⟩ :=
    List.exists_cons_of_ne_nil (ChainOK_ne_nil posix seed s pe hch)
  have hch2 := hch
  rw [ChainOK] at hch2
  obtain ⟨hpath, hfok, -⟩ := hch2
  obtain ⟨-, -, hand, hnos, -⟩ := hfok
  rw [hpath] at hand hnos
  have hclimb := mem_climbInherit posix seed (f :: rest) pe hch p
  rw [FileSetState.matchingPatterns, List.mem_append, List.mem_append]
  constructor
  · rintro ((h | h) | h)
    · obtain ⟨hs, _, hc⟩ := (hand p).mp h
      exact ⟨hs, andSubCond_M posix p pe hc⟩
    · obtain ⟨hs, _, hc⟩ := (hnos p).mp h
      exact ⟨hs, noSubCond_M posix p pe hc⟩
    · obtain ⟨pr, hpre, hs, _, hc⟩ := hclimb.mp h
      obtain ⟨q, rfl⟩ := hpre
      exact ⟨hs, matchDirectory_A_sound posix p (hwf p hs) pr q
        (inheritCond_A posix p pr hc)⟩
  · rintro ⟨hs, hM⟩
    obtain ⟨pr, hpre, ha, hcase⟩ := M_reach posix p (hwf p hs) pe hM
    rcases hcase with rfl | hc
    · by_cases hi : FileSetState.inheritCond posix pr p = true
      · exact Or.inr (hclimb.mpr ⟨pr, List.prefix_rfl, hs, ha, hi⟩)
      · rcases M_not_inherit_cases posix p pr hM (Bool.not_eq_true _ ▸ hi) with h | h
        · exact Or.inl (Or.inl ((hand p).mpr ⟨hs, ha, h⟩))
        · exact Or.inl (Or.inr ((hnos p).mpr ⟨hs, ha, h⟩))
    · exact Or.inr (hclimb.mpr ⟨pr, hpre, hs, ha, hc⟩)

theorem all_files_accepts (posix : Bool) (pat : Pattern) (f : String)
    (h : pat.all_files = true) : pat.fileAccepts posix f = true := by
  rw [Pattern.all_files] at h
  rw [Pattern.fileAccepts, if_pos (of_decide_eq_true h)]

theorem matchFilesLoop_eq (posix : Bool) :
    ∀ (pats : List Pattern) (m u : Finset String),
    FileSetState.matchFilesLoop posix pats m u
      = m ∪ u.filter (fun f => pats.any (fun p => p.fileAccepts posix f))
  | [], m, u => by
    rw [FileSetState.matchFilesLoop]
    simp
  | p :: pats, m, u => by
    rw [FileSetState.matchFilesLoop]
    by_cases hu : u = ∅
    · rw [if_pos hu]
      subst hu
      simp
    · rw [if_neg hu]
      simp only [Pattern.match_files]
      rw [matchFilesLoop_eq posix pats _ _]
      ext g
      simp only [Finset.mem_union, Finset.mem_filter, Finset.mem_sdiff, List.any_cons,
        Bool.or_eq_true_iff]
      constructor
      · rintro ((hm | hg) | ⟨⟨hg, hng⟩, hacc⟩)
        · exact Or.inl hm
        · exact Or.inr ⟨hg.1, Or.inl hg.2⟩
        · exact Or.inr ⟨hg, Or.inr hacc⟩
      · rintro (hm | ⟨hg, hacc | hacc⟩)
        · exact Or.inl (Or.inl hm)
        · exact Or.inl (Or.inr ⟨hg, hacc⟩)
        · by_cases hp : p.fileAccepts posix g = true
          · exact Or.inl (Or.inr ⟨hg, hp⟩)
          · exact Or.inr ⟨⟨hg, fun hc => hp hc.2⟩, hacc⟩
/-- `FileSetState.match` computes the files accepted by some seed
pattern whose `match_directory` has the `MATCH` bit at the current
directory. -/
theorem matchSet_eq (posix : Bool) (seed : List Pattern)
    (hwf : ∀ p ∈ seed, WFPattern p) (s : FileSetState) (pe : List String)
    (hch : ChainOK posix seed s pe) (files : Finset String) :
    FileSetState.matchSet posix s files
      = files.filter (fun f => seed.any (fun p =>
          ((p.match_directory posix pe &&& MatchType.BIT_MATCH) != 0)
            && p.fileAccepts posix f)) := by
  obtain ⟨f0, rest, rfl⟩ :=
    List.exists_cons_of_ne_nil (ChainOK_ne_nil posix seed s pe hch)
  have hch2 := hch
  rw [ChainOK] at hch2
  obtain ⟨hpath, ⟨-, hinh, hand, hnos, -⟩, -⟩ := hch2
  rw [hpath] at hinh hand hnos
  rw [FileSetState.matchSet]
  by_cases hf : files = ∅
  · rw [if_pos hf]
    subst hf
    simp
  · rw [if_neg hf]
    by_cases hfast : (f0.matched_inherit.any Pattern.all_files
        || f0.matched_and_subdir.any Pattern.all_files
        || f0.matched_no_subdir.any Pattern.all_files) = true
    · rw [if_pos hfast]
      have hcover : ∃ p, p ∈ seed ∧
          p.match_directory posix pe &&& MatchType.BIT_MATCH ≠ 0 ∧
          p.all_files = true := by
        rcases Bool.or_eq_true_iff.mp hfast with h | h
        · rcases Bool.or_eq_true_iff.mp h with h | h
          · obtain ⟨p, hpbag, hpall⟩ := List.any_eq_true.mp h
            obtain ⟨hs, -, hc⟩ := (hinh p).mp hpbag
            exact ⟨p, hs, inheritCond_M posix p pe hc, hpall⟩
          · obtain ⟨p, hpbag, hpall⟩ := List.any_eq_true.mp h
            obtain ⟨hs, -, hc⟩ := (hand p).mp hpbag
            exact ⟨p, hs, andSubCond_M posix p pe hc, hpall⟩
        · obtain ⟨p, hpbag, hpall⟩ := List.any_eq_true.mp h
          obtain ⟨hs, -, hc⟩ := (hnos p).mp hpbag
          exact ⟨p, hs, noSubCond_M posix p pe hc, hpall⟩
      obtain ⟨p, hs, hM, hall⟩ := hcover
      refine (Finset.filter_true_of_mem ?_).symm
      intro g _
      exact List.any_eq_true.mpr ⟨p, hs, by
        rw [Bool.and_eq_true_iff]
        exact ⟨bne_iff_ne.mpr hM, all_files_accepts posix p g hall⟩⟩
    · rw [if_neg hfast, matchFilesLoop_eq, Finset.empty_union]
      ext g
      simp only [Finset.mem_filter, List.any_eq_true, Bool.and_eq_true_iff, bne_iff_ne,
        ne_eq]
      constructor
      · rintro ⟨hg, p, hp, hacc⟩
        obtain ⟨hs, hM⟩ :=
          (mem_matchingPatterns posix seed hwf (f0 :: rest) pe hch p).mp hp
        exact ⟨hg, p, hs, hM, hacc⟩
      · rintro ⟨hg, p, hs, hM, hacc⟩
        exact ⟨hg, p,
          (mem_matchingPatterns posix seed hwf (f0 :: rest) pe hch p).mpr ⟨hs, hM⟩, hacc⟩

/-- When the exclude state's `matches_all_files_all_subdirs` fires at
`pe`, the brute-force result of `pe` and of every directory below it is
empty. -/
theorem excl_prune_brute_empty (posix : Bool) (fs : FileSet) (pe : List String)
    (hwfe : ∀ p ∈ fs.exclude.patterns, WFPattern p)
    (s : FileSetState) (hch : ChainOK posix fs.exclude.patterns s pe)
    (hall : FileSetState.matches_all_files_all_subdirs s = true) :
    ∀ (q : List String) (files2 : List String),
      dirBrute posix fs (pe ++ q) files2 = ∅ := by
  intro q files2
  obtain ⟨f, rest, rfl⟩ :=
    List.exists_cons_of_ne_nil (ChainOK_ne_nil posix fs.exclude.patterns s pe hch)
  rw [ChainOK] at hch
  obtain ⟨hpath, ⟨-, hinh, -, -, -⟩, -⟩ := hch
  rw [hpath] at hinh
  rw [FileSetState.matches_all_files_all_subdirs] at hall
  obtain ⟨p, hpbag, hpall⟩ := List.any_eq_true.mp hall
  obtain ⟨hs, -, hc⟩ := (hinh p).mp hpbag
  rw [dirBrute, Finset.filter_eq_empty_iff]
  intro g _ hcontra
  rw [Bool.and_eq_true_iff] at hcontra
  have hexcl : fs.exclude.patterns.any (fun p =>
      ((p.match_directory posix (pe ++ q) &&& MatchType.BIT_MATCH) != 0)
        && p.fileAccepts posix g) = true :=
    List.any_eq_true.mpr ⟨p, hs, by
      rw [Bool.and_eq_true_iff]
      exact ⟨bne_iff_ne.mpr (matchDirectory_A_sound posix p (hwfe p hs) pe q
        (inheritCond_A posix p pe hc)), all_files_accepts posix p g hpall⟩⟩
  rw [hexcl] at hcontra
  exact absurd hcontra.2 (by decide)

/-- When the include state's `no_possible_matches_in_subdirs` fires at
`pe`, the brute-force result of every directory strictly below `pe` is
empty. -/
theorem incl_prune_brute_empty (posix : Bool) (fs : FileSet) (pe : List String)
    (hwfi : ∀ p ∈ fs.include_.patterns, WFPattern p)
    (s : FileSetState) (hch : ChainOK posix fs.include_.patterns s pe)
    (hnone : FileSetState.no_possible_matches_in_subdirs s = true) :
    ∀ (q : List String), q ≠ [] → ∀ (files2 : List String),
      dirBrute posix fs (pe ++ q) files2 = ∅ := by
  intro q hq files2
  obtain ⟨f, rest, rfl⟩ :=
    List.exists_cons_of_ne_nil (ChainOK_ne_nil posix fs.include_.patterns s pe hch)
  rw [ChainOK] at hch
  obtain ⟨hpath, ⟨hphp, hinh, hand, -, hunm⟩, -⟩ := hch
  rw [hpath] at hphp hinh hand hunm
  rw [FileSetState.no_possible_matches_in_subdirs] at hnone
  simp only [Bool.and_eq_true_iff] at hnone
  obtain ⟨⟨⟨hphp0, hie⟩, hae⟩, hue⟩ := hnone
  have hphpI : phpIdeal posix fs.include_.patterns pe = false := by
    rw [← hphp]
    revert hphp0
    cases f.parent_has_patterns <;> simp
  have hnoInh : ∀ p', ¬(p' ∈ fs.include_.patterns ∧ arrives posix p' pe = true ∧
      FileSetState.inheritCond posix pe p' = true) := fun p' hx => by
    have h := (hinh p').mpr hx
    rw [List.isEmpty_iff.mp hie] at h
    exact List.not_mem_nil p' h
  have hnoAnd : ∀ p', ¬(p' ∈ fs.include_.patterns ∧ arrives posix p' pe = true ∧
      FileSetState.andSubCond posix pe p' = true) := fun p' hx => by
    have h := (hand p').mpr hx
    rw [List.isEmpty_iff.mp hae] at h
    exact List.not_mem_nil p' h
  have hnoUnm : ∀ p', ¬(p' ∈ fs.include_.patterns ∧ arrives posix p' pe = true ∧
      FileSetState.unmatchedCond posix pe p' = true) := fun p' hx => by
    have h := (hunm p').mpr hx
    rw [List.isEmpty_iff.mp hue] at h
    exact List.not_mem_nil p' h
  have hnoSurv : ∀ p', p' ∈ fs.include_.patterns → arrives posix p' pe = true →
      survives posix p' pe = true → False := fun p' hs' ha' hx => by
    rw [survives, Bool.or_eq_true_iff] at hx
    rcases hx with h | h
    · exact hnoAnd p' ⟨hs', ha', h⟩
    · exact hnoUnm p' ⟨hs', ha', h⟩
  rw [dirBrute, Finset.filter_eq_empty_iff]
  intro g _ hcontra
  rw [Bool.and_eq_true_iff] at hcontra
  obtain ⟨hincAny, -⟩ := hcontra
  obtain ⟨p, hs, hMacc⟩ := List.any_eq_true.mp hincAny
  rw [Bool.and_eq_true_iff] at hMacc
  have hM : p.match_directory posix (pe ++ q) &&& MatchType.BIT_MATCH ≠ 0 :=
    bne_iff_ne.mp hMacc.1
  obtain ⟨pr, hpre, ha, hcase⟩ := M_reach posix p (hwfi p hs) (pe ++ q) hM
  rcases hcase with rfl | hc
  · exact hnoSurv p hs (arrives_of_arrives_append posix p pe q ha)
      (survives_of_arrives_append posix p pe hq ha)
  · by_cases hne : pr = pe
    · subst hne
      exact hnoInh p ⟨hs, ha, hc⟩
    · rcases List.prefix_or_prefix_of_prefix hpre (List.prefix_append pe q) with hcmp | hcmp
      · have hT : phpIdeal posix fs.include_.patterns pe = true :=
          (phpIdeal_true_iff posix fs.include_.patterns pe).mpr
            ⟨pr, hcmp, hne, (hasInherit_iff posix fs.include_.patterns pr).mpr
              ⟨p, hs, ha, hc⟩⟩
        rw [hphpI] at hT
        exact absurd hT (by decide)
      · obtain ⟨q2, rfl⟩ := hcmp
        have hq2 : q2 ≠ [] := by rintro rfl; exact hne (by simp)
        exact hnoSurv p hs (arrives_of_arrives_append posix p pe q2 ha)
          (survives_of_arrives_append posix p pe hq2 ha)

/-- The two `FileSetState` constructions performed by `_receive` produce
chains satisfying the invariant. -/
theorem create_prev_ok (posix : Bool) (seed : List Pattern)
    (prevOpt : Option FileSetState) (pe : List String) (seed2 : List Pattern)
    (h : PrevOK posix seed prevOpt pe)
    (hseed : prevOpt = none → seed2 = seed) :
    ChainOK posix seed (FileSetState.create posix pe prevOpt seed2) pe := by
  cases prevOpt with
  | none =>
    rw [PrevOK] at h
    subst h
    rw [hseed rfl]
    exact create_root_ok posix seed
  | some prev =>
    rw [PrevOK] at h
    obtain ⟨hne, prevPe, hch, hpre, hnot⟩ := h
    have hdecomp : pe.dropLast ++ [pe.getLast hne] = pe :=
      List.dropLast_append_getLast hne
    have h2 := create_child_ok posix seed prev prevPe pe.dropLast (pe.getLast hne)
      seed2 hch hpre (by rw [hdecomp]; exact hnot)
    rw [hdecomp] at h2
    exact h2
theorem sdiff_filter_filter {α : Type} [DecidableEq α] (s : Finset α) (P Q : α → Bool) :
    (s.filter (fun x => P x)) \ ((s.filter (fun x => P x)).filter (fun x => Q x))
      = s.filter (fun x => P x && !Q x) := by
  ext g
  simp only [Finset.mem_sdiff, Finset.mem_filter, Bool.and_eq_true_iff, Bool.not_eq_true']
  constructor
  · rintro ⟨⟨hg, hp⟩, hn⟩
    refine ⟨hg, hp, ?_⟩
    cases hq : Q g with
    | false => rfl
    | true => exact absurd ⟨⟨hg, hp⟩, hq⟩ hn
  · rintro ⟨hg, hp, hq⟩
    exact ⟨⟨hg, hp⟩, fun hc => by rw [hq] at hc; exact absurd hc.2 (by decide)⟩

/-- `FileSet._receive` yields exactly the brute-force matched set of the
visited directory, produces invariant-preserving states, and prunes only
when every directory strictly below has an empty brute-force set. -/
theorem receive_ok (posix : Bool) (fs : FileSet) (pe : List String)
    (files : List String) (incPrev excPrev : Option FileSetState)
    (hwfi : ∀ p ∈ fs.include_.patterns, WFPattern p)
    (hwfe : ∀ p ∈ fs.exclude.patterns, WFPattern p)
    (hinc : PrevOK posix fs.include_.patterns incPrev pe)
    (hexc : PrevOK posix fs.exclude.patterns excPrev pe) :
    (receive posix fs pe files incPrev excPrev).1 = dirBrute posix fs pe files ∧
    ChainOK posix fs.include_.patterns (receive posix fs pe files incPrev excPrev).2.1 pe ∧
    ChainOK posix fs.exclude.patterns (receive posix fs pe files incPrev excPrev).2.2.1 pe ∧
    ((receive posix fs pe files incPrev excPrev).2.2.2 = true →
      ∀ (q : List String), q ≠ [] → ∀ (files2 : List String),
        dirBrute posix fs (pe ++ q) files2 = ∅) := by
  have hincCh : ChainOK posix fs.include_.patterns
      (FileSetState.create posix pe incPrev
        (if incPrev.isNone then fs.include_.patterns else [])) pe := by
    apply create_prev_ok posix fs.include_.patterns incPrev pe _ hinc
    intro h
    subst h
    simp
  have hexcCh : ChainOK posix fs.exclude.patterns
      (FileSetState.create posix pe excPrev
        (if excPrev.isNone then fs.exclude.patterns else [])) pe := by
    apply create_prev_ok posix fs.exclude.patterns excPrev pe _ hexc
    intro h
    subst h
    simp
  simp only [receive]
  by_cases hprune : (FileSetState.create posix pe excPrev
      (if excPrev.isNone then fs.exclude.patterns else [])).matches_all_files_all_subdirs
        = true
  · simp only [if_pos hprune]
    refine ⟨?_, hincCh, hexcCh,
      fun _ q _ files2 => excl_prune_brute_empty posix fs pe hwfe _ hexcCh hprune q files2⟩
    have h := excl_prune_brute_empty posix fs pe hwfe _ hexcCh hprune [] files
    rw [List.append_nil] at h
    exact h.symm
  · simp only [if_neg hprune]
    by_cases hnp : (FileSetState.create posix pe incPrev
        (if incPrev.isNone then fs.include_.patterns else [])).no_possible_matches_in_subdirs
          = true
    · simp only [if_pos hnp]
      refine ⟨?_, hincCh, hexcCh,
        fun _ q hq files2 => incl_prune_brute_empty posix fs pe hwfi _ hincCh hnp q hq files2⟩
      rw [matchSet_eq posix fs.include_.patterns hwfi _ pe hincCh,
        matchSet_eq posix fs.exclude.patterns hwfe _ pe hexcCh,
        sdiff_filter_filter, dirBrute]
    · simp only [if_neg hnp]
      refine ⟨?_, hincCh, hexcCh, fun habs => absurd habs (by decide)⟩
      rw [matchSet_eq posix fs.include_.patterns hwfi _ pe hincCh,
        matchSet_eq posix fs.exclude.patterns hwfe _ pe hexcCh,
        sdiff_filter_filter, dirBrute]

theorem pairsOf_go :
    ∀ (l : List (List String × Finset String)) (acc : Finset (List String × String)),
    l.foldl (fun a d => a ∪ d.2.image (fun f => (d.1, f))) acc = acc ∪ pairsOf l
  | [], acc => by simp [pairsOf]
  | d :: l, acc => by
    rw [pairsOf, List.foldl_cons, List.foldl_cons, pairsOf_go l _, pairsOf_go l _,
      Finset.empty_union, Finset.union_assoc]

theorem pairsOf_cons (d : List String × Finset String)
    (l : List (List String × Finset String)) :
    pairsOf (d :: l) = d.2.image (fun f => (d.1, f)) ∪ pairsOf l := by
  rw [pairsOf, List.foldl_cons, pairsOf_go, Finset.empty_union]

theorem pairsOf_append (l1 l2 : List (List String × Finset String)) :
    pairsOf (l1 ++ l2) = pairsOf l1 ∪ pairsOf l2 := by
  induction l1 with
  | nil =>
    rw [List.nil_append]
    rw [show pairsOf [] = ∅ from rfl, Finset.empty_union]
  | cons d l1 ih =>
    rw [List.cons_append, pairsOf_cons, pairsOf_cons, ih, Finset.union_assoc]

theorem pairsOf_eq_empty (l : List (List String × Finset String))
    (h : ∀ d ∈ l, d.2 = ∅) : pairsOf l = ∅ := by
  induction l with
  | nil => rfl
  | cons d l ih =>
    rw [pairsOf_cons, h d (List.mem_cons_self d l), Finset.image_empty,
      Finset.empty_union]
    exact ih fun d hd => h d (List.mem_cons_of_mem _ hd)

mutual
theorem walkAll_path : ∀ (t : FTree) (pe : List String) (d : List String × List String),
    d ∈ walkAll t pe → ∃ q, d.1 = pe ++ q
  | FTree.node dirs _, pe, d, hd => by
    rw [walkAll] at hd
    rcases List.mem_cons.mp hd with rfl | hd
    · exact ⟨[], by simp⟩
    · obtain ⟨q, _, he⟩ := walkAllList_path dirs pe d hd
      exact ⟨q, he⟩

theorem walkAllList_path :
    ∀ (dirs : List (String × FTree)) (pe : List String) (d : List String × List String),
    d ∈ walkAllList dirs pe → ∃ q, q ≠ [] ∧ d.1 = pe ++ q
  | [], _, d, hd => by rw [walkAllList] at hd; exact absurd hd (List.not_mem_nil d)
  | (name, t) :: rest, pe, d, hd => by
    rw [walkAllList, List.mem_append] at hd
    rcases hd with hd | hd
    · obtain ⟨q, he⟩ := walkAll_path t (pe ++ [name]) d hd
      exact ⟨name :: q, by simp, by rw [he]; simp⟩
    · exact walkAllList_path rest pe d hd
end
/- The main traversal invariant: the pruned walk emits exactly the
brute-force pairs of the subtree it covers, and its final states form
valid chains for some directory below the entry point that crossed only
into processed subdirectories. -/
mutual
theorem runWalk_ok (posix : Bool) (fs : FileSet) :
    ∀ (t : FTree) (pe : List String) (incPrev excPrev : Option FileSetState),
    (∀ p ∈ fs.include_.patterns, WFPattern p) →
    (∀ p ∈ fs.exclude.patterns, WFPattern p) →
    WFTreeB t = true →
    PrevOK posix fs.include_.patterns incPrev pe →
    PrevOK posix fs.exclude.patterns excPrev pe →
    (pairsOf (runWalk posix fs t pe incPrev excPrev).1
      = pairsOf ((walkAll t pe).map (fun d => (d.1, dirBrute posix fs d.1 d.2))) ∧
    ∃ finalPe, pe <+: finalPe ∧
      ChainOK posix fs.include_.patterns
        (runWalk posix fs t pe incPrev excPrev).2.1 finalPe ∧
      ChainOK posix fs.exclude.patterns
        (runWalk posix fs t pe incPrev excPrev).2.2 finalPe)
  | FTree.node dirs files, pe, incPrev, excPrev => by
    intro hwfi hwfe hwft hinc hexc
    rw [WFTreeB, Bool.and_eq_true_iff] at hwft
    obtain ⟨hnd, hwftL⟩ := hwft
    obtain ⟨hm, hChI, hChE, hpr⟩ :=
      receive_ok posix fs pe files incPrev excPrev hwfi hwfe hinc hexc
    simp only [runWalk]
    by_cases hp : (receive posix fs pe files incPrev excPrev).2.2.2 = true
    · simp only [if_pos hp]
      constructor
      · have hrest : pairsOf ((walkAllList dirs pe).map
            (fun d => (d.1, dirBrute posix fs d.1 d.2))) = ∅ := by
          apply pairsOf_eq_empty
          intro d' hd'
          obtain ⟨d, hd, rfl⟩ := List.mem_map.mp hd'
          obtain ⟨q, hq, he⟩ := walkAllList_path dirs pe d hd
          show dirBrute posix fs d.1 d.2 = ∅
          rw [he]
          exact hpr hp q hq d.2
        rw [walkAll, List.map_cons, pairsOf_cons, pairsOf_cons, hrest]
        rw [hm]
        rfl
      · exact ⟨pe, List.prefix_rfl, hChI, hChE⟩
    · simp only [if_neg hp]
      have hnames : ∀ nm ∈ dirs.map Prod.fst, ¬ ((pe ++ [nm]) <+: pe) := by
        intro nm _ hc
        have := hc.length_le
        simp at this
      obtain ⟨hpairs, finalPe, hfpre, _, hfI, hfE⟩ :=
        runWalkList_ok posix fs dirs pe pe
          (receive posix fs pe files incPrev excPrev).2.1
          (receive posix fs pe files incPrev excPrev).2.2.1
          hwfi hwfe (of_decide_eq_true hnd) hwftL hChI hChE List.prefix_rfl hnames
      constructor
      · rw [walkAll, List.map_cons, pairsOf_cons, pairsOf_cons, hm, hpairs]
      · exact ⟨finalPe, hfpre, hfI, hfE⟩

theorem runWalkList_ok (posix : Bool) (fs : FileSet) :
    ∀ (dirs : List (String × FTree)) (parentPe curPe : List String)
      (inc exc : FileSetState),
    (∀ p ∈ fs.include_.patterns, WFPattern p) →
    (∀ p ∈ fs.exclude.patterns, WFPattern p) →
    (dirs.map Prod.fst).Nodup →
    WFTreeListB dirs = true →
    ChainOK posix fs.include_.patterns inc curPe →
    ChainOK posix fs.exclude.patterns exc curPe →
    parentPe <+: curPe →
    (∀ nm ∈ dirs.map Prod.fst, ¬ ((parentPe ++ [nm]) <+: curPe)) →
    (pairsOf (runWalkList posix fs dirs parentPe inc exc).1
      = pairsOf ((walkAllList dirs parentPe).map
          (fun d => (d.1, dirBrute posix fs d.1 d.2))) ∧
    ∃ finalPe, parentPe <+: finalPe ∧
      (∀ nm, (parentPe ++ [nm]) <+: finalPe →
        (parentPe ++ [nm]) <+: curPe ∨ nm ∈ dirs.map Prod.fst) ∧
      ChainOK posix fs.include_.patterns
        (runWalkList posix fs dirs parentPe inc exc).2.1 finalPe ∧
      ChainOK posix fs.exclude.patterns
        (runWalkList posix fs dirs parentPe inc exc).2.2 finalPe)
  | [], parentPe, curPe, inc, exc => by
    intro _ _ _ _ hinc hexc hpar _
    simp only [runWalkList, walkAllList, List.map_nil]
    exact ⟨trivial, curPe, hpar, fun nm h => Or.inl h, hinc, hexc⟩
  | (name, t) :: rest, parentPe, curPe, inc, exc => by
    intro hwfi hwfe hnodup hwft hinc hexc hpar hnames
    rw [WFTreeListB, Bool.and_eq_true_iff] at hwft
    obtain ⟨hwtT, hwtL⟩ := hwft
    rw [List.map_cons, List.nodup_cons] at hnodup
    obtain ⟨hname_nin, hnodupR⟩ := hnodup
    have hPinc : PrevOK posix fs.include_.patterns (some inc) (parentPe ++ [name]) := by
      rw [PrevOK]
      refine ⟨by simp, curPe, hinc, ?_, ?_⟩
      · rw [List.dropLast_concat]
        exact hpar
      · exact hnames name (by simp)
    have hPexc : PrevOK posix fs.exclude.patterns (some exc) (parentPe ++ [name]) := by
      rw [PrevOK]
      refine ⟨by simp, curPe, hexc, ?_, ?_⟩
      · rw [List.dropLast_concat]
        exact hpar
      · exact hnames name (by simp)
    obtain ⟨hcpairs, childFinal, hcf, hcI, hcE⟩ :=
      runWalk_ok posix fs t (parentPe ++ [name]) (some inc) (some exc)
        hwfi hwfe hwtT hPinc hPexc
    have hnamesR : ∀ nm ∈ rest.map Prod.fst, ¬ ((parentPe ++ [nm]) <+: childFinal) := by
      intro nm hnm hc
      have hsame : parentPe ++ [nm] = parentPe ++ [name] := by
        rcases List.prefix_or_prefix_of_prefix hc hcf with h | h
        · exact h.eq_of_length (by simp)
        · exact (h.eq_of_length (by simp)).symm
      have : nm = name := by simpa using hsame
      subst this
      exact hname_nin hnm
    obtain ⟨hrpairs, finalPe, hfpre, hcross, hfI, hfE⟩ :=
      runWalkList_ok posix fs rest parentPe childFinal
        (runWalk posix fs t (parentPe ++ [name]) (some inc) (some exc)).2.1
        (runWalk posix fs t (parentPe ++ [name]) (some inc) (some exc)).2.2
        hwfi hwfe hnodupR hwtL hcI hcE
        ((List.prefix_append parentPe [name]).trans hcf) hnamesR
    simp only [runWalkList]
    constructor
    · rw [walkAllList, List.map_append, pairsOf_append, pairsOf_append, hcpairs, hrpairs]
    · refine ⟨finalPe, hfpre, ?_, hfI, hfE⟩
      intro nm h
      rcases hcross nm h with h2 | h2
      · -- parentPe ++ [nm] <+: childFinal: the name must be the processed child
        have hsame : parentPe ++ [nm] = parentPe ++ [name] := by
          rcases List.prefix_or_prefix_of_prefix h2 hcf with h3 | h3
          · exact h3.eq_of_length (by simp)
          · exact (h3.eq_of_length (by simp)).symm
        have : nm = name := by simpa using hsame
        subst this
        exact Or.inr (by simp)
      · exact Or.inr (by simp [h2])
end
/-- C1: for every `FileSet` (include patterns, exclude patterns,
injected walker), the set of `(relative_dir, file)` pairs emitted by
`files()` with pruning enabled (emptying the walker's subdirs list when
the exclude state matches all files in all subdirectories, or when the
include state has no possible matches in subdirectories) equals the set
of pairs computed by a brute-force run over the same walker output with
no pruning, where each directory's files are filtered as include matches
minus exclude matches.  (Patterns are required to be structurally
well-formed, as every pattern built by `Pattern.create` is, and sibling
directory names in the walker are distinct, as `os.walk` guarantees.) -/
theorem claim_C1 (posix : Bool) (fs : FileSet) (t : FTree)
    (hwfi : ∀ p ∈ fs.include_.patterns, WFPattern p)
    (hwfe : ∀ p ∈ fs.exclude.patterns, WFPattern p)
    (hwft : WFTreeB t = true) :
    emittedSet posix fs t = bruteSet posix fs t := by
  rw [emittedSet, bruteSet]
  exact (runWalk_ok posix fs t [] none none hwfi hwfe hwft
    (by rw [PrevOK]) (by rw [PrevOK])).1

def fsC1 : FileSet :=
  ⟨⟨[Pattern.ofElements true ["**", "a", "**"] true]⟩,
   ⟨[Pattern.ofElements true ["**", "b.txt"] true]⟩⟩

def tC1 : FTree :=
  FTree.node
    [("a", FTree.node [("c", FTree.node [] ["b.txt", "d.txt"])] ["f.txt"]),
     ("b", FTree.node [] ["g.txt"])] ["h.txt"]

theorem claim_C1_witness :
    ((∀ p ∈ fsC1.include_.patterns, WFPattern p) ∧
     (∀ p ∈ fsC1.exclude.patterns, WFPattern p) ∧
     WFTreeB tC1 = true) ∧
    emittedSet true fsC1 tC1 = bruteSet true fsC1 tC1 :=
  ⟨⟨by decide, by decide, by decide⟩,
   claim_C1 true fsC1 tC1 (by decide) (by decide) (by decide)⟩

end Formic
